import Mathlib

/-!
Subdomain finder plugin (`plugins/tool-subfinder.js`)

A shallow embedding of the plugin's validator, rate limiter, source
normalisers, aggregator and handler, followed by theorems about them.

JavaScript strings are modelled as `List Char`.  `toLowerCase` lowers the
ASCII letters itself and takes the lower-case mappings of all other
characters from a table, a parameter of the embedding: the Unicode data of
the JavaScript engine are not part of the plugin.
-/

namespace Subfinder

/-- JavaScript string, as its list of characters. -/
abbrev Str := List Char

/-! ## Regular expressions

The fragment of JavaScript regular expressions used by the plugin, with a
backtracking semantics: `Regex.run r n rest` lists every remainder of the
input that can be left after `r` has matched a prefix of `rest`; `n` is the
length of the whole input, so that `^` can recognise position 0. -/

/-- Abstract syntax of the regular expressions the plugin uses. -/
inductive Regex where
  /-- start of the input: `^` without the `m` flag -/
  | bol : Regex
  /-- end of the input: `$` without the `m` flag -/
  | eol : Regex
  /-- one character of a class such as `[a-zA-Z0-9-]`, or a literal -/
  | cls (p : Char → Bool) : Regex
  /-- concatenation `ab` -/
  | seq (a b : Regex) : Regex
  /-- alternation `a|b` -/
  | alt (a b : Regex) : Regex
  /-- bounded repetition `a{lo,hi}` -/
  | rep (a : Regex) (lo hi : Nat) : Regex
  /-- repetition `a+` -/
  | plus (a : Regex) : Regex
  /-- negative lookahead `(?!a)` -/
  | nla (a : Regex) : Regex

/-- Repetition of a matcher `f` between `lo` and `hi` times. -/
def repeatRun (f : Str → List Str) : Nat → Nat → Str → List Str
  | 0, 0, r => [r]
  | 0, hi + 1, r => r :: (f r).flatMap (repeatRun f 0 hi)
  | _ + 1, 0, _ => []
  | lo + 1, hi + 1, r => (f r).flatMap (repeatRun f lo hi)

/-- All remainders after matching `r` at the front of `rest`, the whole
input having `n` characters.  An iteration of `a+` that consumes nothing
reaches no new position, so `a+` needs at most `rest.length + 1`
iterations. -/
def Regex.run : Regex → Nat → Str → List Str
  | .bol, n, rest => if rest.length = n then [rest] else []
  | .eol, _, rest => if rest.isEmpty then [rest] else []
  | .cls p, _, rest =>
    match rest with
    | [] => []
    | c :: t => if p c then [t] else []
  | .seq a b, n, rest => (a.run n rest).flatMap (b.run n)
  | .alt a b, n, rest => a.run n rest ++ b.run n rest
  | .rep a lo hi, n, rest => repeatRun (a.run n) lo hi rest
  | .plus a, n, rest => repeatRun (a.run n) 1 (rest.length + 1) rest
  | .nla a, n, rest => if (a.run n rest).isEmpty then [rest] else []

/-- Embedding of `RegExp.prototype.test` for a regular expression without flags: is there
a match starting at some position of `s`? -/
def Regex.test (r : Regex) (s : Str) : Bool :=
  (List.range (s.length + 1)).any (fun i => !(r.run s.length (s.drop i)).isEmpty)

/-- Literal character. -/
def Regex.chr (c : Char) : Regex := .cls (fun x => x == c)

/-! ## Domain validator -/

/-- Character class `[a-zA-Z]`, by code point: `a`-`z` is 97-122 and `A`-`Z`
is 65-90. -/
def isLetter (c : Char) : Bool :=
  let n := c.toNat
  (97 ≤ n && n ≤ 122) || (65 ≤ n && n ≤ 90)

/-- Character class `[a-zA-Z0-9-]`: a letter, a digit (48-57) or `-` (45). -/
def isLabelChar (c : Char) : Bool :=
  let n := c.toNat
  isLetter c || (48 ≤ n && n ≤ 57) || n == 45

/-- The literal `/^(?!-)(?:[a-zA-Z0-9-]{1,63}\.)+[a-zA-Z]{2,63}$/`. -/
def domainRegex : Regex :=
  .seq .bol
    (.seq (.nla (.chr '-'))
      (.seq (.plus (.seq (.rep (.cls isLabelChar) 1 63) (.chr '.')))
        (.seq (.rep (.cls isLetter) 2 63) .eol)))

/-- Embedding of `validateDomain(domain)`. -/
def validateDomain (domain : Str) : Bool :=
  domainRegex.test domain

/-! ## String operations -/

/-- White space and line terminators removed by `String.prototype.trim`. -/
def isWhiteSpace (c : Char) : Bool :=
  let n := c.toNat
  n == 0x09 || n == 0x0A || n == 0x0B || n == 0x0C || n == 0x0D || n == 0x20 ||
  n == 0xA0 || n == 0x1680 || (0x2000 ≤ n && n ≤ 0x200A) || n == 0x2028 ||
  n == 0x2029 || n == 0x202F || n == 0x205F || n == 0x3000 || n == 0xFEFF

/-- Embedding of `s.trim()`. -/
def trim (s : Str) : Str :=
  ((s.dropWhile isWhiteSpace).reverse.dropWhile isWhiteSpace).reverse

/-- The lower-case mappings of the characters outside ASCII, as
`String.prototype.toLowerCase` applies them: `U before c after` is the text
that replaces the character `c` standing between `before` and `after` (the
context matters for a few characters, such as the Greek capital sigma).
These are the Unicode data of the JavaScript engine; they are taken as a
parameter. -/
abbrev CaseTable := Str → Char → Str → Str

/-- Lowering of a text that stands after `before`: an ASCII character is
replaced by its lower-case form, `A`-`Z` becoming `a`-`z`, another character
by its mapping in the table. -/
def lowerFrom (U : CaseTable) (before : Str) : Str → Str
  | [] => []
  | c :: after =>
    (if c.toNat < 128 then [c.toLower] else U before c after)
      ++ lowerFrom U (before ++ [c]) after

/-- Embedding of `s.toLowerCase()`. -/
def toLowerCase (U : CaseTable) (s : Str) : Str := lowerFrom U [] s

/-- Embedding of `s.startsWith(p)`. -/
def startsWith (s p : Str) : Bool := p.isPrefixOf s

/-- Embedding of `s.endsWith(p)`. -/
def endsWith (s p : Str) : Bool := p.isSuffixOf s

/-- Embedding of `s.split(sep)` for a one-character separator. -/
def split (sep : Char) : Str → List Str
  | [] => [[]]
  | c :: cs =>
    if c = sep then [] :: split sep cs
    else
      match split sep cs with
      | [] => [[c]]
      | w :: ws => (c :: w) :: ws

/-! ## Rate limiter -/

/-- State of `class RateLimiter`: the `requests` map and the two settings. -/
structure RateLimiter (κ : Type) where
  requests : κ → Option (List Int)
  maxRequests : Nat
  timeWindow : Int

/-- Embedding of `new RateLimiter(maxRequests, timeWindow)`. -/
def RateLimiter.new (κ : Type) (maxRequests : Nat) (timeWindow : Int) : RateLimiter κ :=
  { requests := fun _ => none, maxRequests := maxRequests, timeWindow := timeWindow }

/-- Embedding of `this.requests.set(userId, value)`. -/
def RateLimiter.set {κ : Type} [DecidableEq κ] (rl : RateLimiter κ) (userId : κ)
    (value : List Int) : RateLimiter κ :=
  { rl with requests := fun u => if u = userId then some value else rl.requests u }

/-- Embedding of `isAllowed(userId)` with `Date.now()` returning `now`: the answer and the
limiter afterwards. -/
def RateLimiter.isAllowed {κ : Type} [DecidableEq κ] (rl : RateLimiter κ) (userId : κ)
    (now : Int) : Bool × RateLimiter κ :=
  match rl.requests userId with
  | none => (true, rl.set userId [now])
  | some userRequests =>
    let recentRequests := userRequests.filter (fun time => now - time < rl.timeWindow)
    if recentRequests.length < rl.maxRequests then
      (true, rl.set userId (recentRequests ++ [now]))
    else
      (false, rl)

/-- Embedding of `getTimeUntilNextAllowed(userId)` with `Date.now()` returning `now`. -/
def RateLimiter.getTimeUntilNextAllowed {κ : Type} (rl : RateLimiter κ) (userId : κ)
    (now : Int) : Int :=
  match rl.requests userId with
  | none => 0
  | some [] => 0
  | some (t :: ts) =>
    let oldestRequest := ts.foldl min t
    max 0 (rl.timeWindow - (now - oldestRequest))

/-- Successive `isAllowed(userId)` calls at the given times: the answers in
order and the limiter afterwards. -/
def RateLimiter.calls {κ : Type} [DecidableEq κ] (rl : RateLimiter κ) (userId : κ) :
    List Int → List Bool × RateLimiter κ
  | [] => ([], rl)
  | now :: later =>
    let r := rl.isAllowed userId now
    let rest := RateLimiter.calls r.2 userId later
    (r.1 :: rest.1, rest.2)

/-- A history of `isAllowed(userId)` calls, each with its caller and the
time `Date.now()` returns: the limiter afterwards. -/
def RateLimiter.run {κ : Type} [DecidableEq κ] (rl : RateLimiter κ) :
    List (κ × Int) → RateLimiter κ
  | [] => rl
  | c :: later => RateLimiter.run (rl.isAllowed c.1 c.2).2 later

/-! ## Source payloads -/

/-- Value produced by `response.json()`. -/
inductive JSON where
  | null : JSON
  | bool (b : Bool) : JSON
  | num (n : Int) : JSON
  | str (s : Str) : JSON
  | arr (items : List JSON) : JSON
  | obj (props : List (Str × JSON)) : JSON

/-- Truthiness of the result of a property read; `none` is `undefined`. -/
def truthy : Option JSON → Bool
  | none => false
  | some .null => false
  | some (.bool b) => b
  | some (.num n) => n != 0
  | some (.str s) => !s.isEmpty
  | some (.arr _) => true
  | some (.obj _) => true

/-- The `Set` of hostnames, in insertion order. -/
abbrev StrSet := List Str

/-- Embedding of `subdomains.add(x)`. -/
def StrSet.add (s : StrSet) (x : Str) : StrSet :=
  if x ∈ s then s else s ++ [x]

/-- Result of running a normaliser: the shared set as it left it, and whether
it raised an error. -/
structure Outcome where
  set : StrSet
  threw : Bool

/-- Embedding of `items.forEach(f)` over the shared set, stopping at the first error. -/
def forEach {α : Type} (f : α → StrSet → Outcome) : List α → StrSet → Outcome
  | [], s => ⟨s, false⟩
  | x :: rest, s =>
    let o := f x s
    if o.threw then o else forEach f rest o.set

/-- Body of the inner `forEach` of `crtShParser`, for one line `sub`. -/
def crtShLine (U : CaseTable) (domain : Str) (sub : Str) (subdomains : StrSet) : Outcome :=
  let cleanSub := toLowerCase U (trim sub)
  if endsWith cleanSub domain then ⟨subdomains.add cleanSub, false⟩
  else ⟨subdomains, false⟩

/-- Body of the outer `forEach` of `crtShParser`, for one `entry`.  Reading a
property of `null` raises a `TypeError`; so does calling `split` on a truthy
value that is not a string. -/
def crtShEntry (U : CaseTable) (domain : Str) (entry : JSON) (subdomains : StrSet) : Outcome :=
  match entry with
  | .null => ⟨subdomains, true⟩
  | .obj props =>
    let name_value := props.lookup "name_value".toList
    if truthy name_value then
      match name_value with
      | some (.str s) => forEach (crtShLine U domain) (split '\n' s) subdomains
      | _ => ⟨subdomains, true⟩
    else ⟨subdomains, false⟩
  | _ => ⟨subdomains, false⟩

/-- Embedding of `crtShParser(data, domain, subdomains)`.  Only an array has `forEach`. -/
def crtShParser (U : CaseTable) (data : JSON) (domain : Str) (subdomains : StrSet) : Outcome :=
  match data with
  | .arr entries => forEach (crtShEntry U domain) entries subdomains
  | _ => ⟨subdomains, true⟩

/-- Body of the `forEach` of `alienvaultParser`, for one `record`. -/
def alienvaultRecord (U : CaseTable) (domain : Str) (record : JSON) (subdomains : StrSet) :
    Outcome :=
  match record with
  | .null => ⟨subdomains, true⟩
  | .obj props =>
    let hostname := props.lookup "hostname".toList
    if truthy hostname then
      match hostname with
      | some (.str h) =>
        if endsWith h domain then ⟨subdomains.add (toLowerCase U h), false⟩
        else ⟨subdomains, false⟩
      | _ => ⟨subdomains, true⟩
    else ⟨subdomains, false⟩
  | _ => ⟨subdomains, false⟩

/-- Embedding of `alienvaultParser(data, domain, subdomains)`. -/
def alienvaultParser (U : CaseTable) (data : JSON) (domain : Str) (subdomains : StrSet) : Outcome :=
  match data with
  | .null => ⟨subdomains, true⟩
  | .obj props =>
    let passive_dns := props.lookup "passive_dns".toList
    if truthy passive_dns then
      match passive_dns with
      | some (.arr records) => forEach (alienvaultRecord U domain) records subdomains
      | _ => ⟨subdomains, true⟩
    else ⟨subdomains, false⟩
  | _ => ⟨subdomains, false⟩

/-! ## Aggregator -/

/-- What `fetch(source.url, ...)` and `response.json()` deliver for one
source: the request fails, or a response arrives with its `ok` flag and its
body (`none` when the body is not JSON). -/
inductive FetchResult where
  | failed : FetchResult
  | response (ok : Bool) (body : Option JSON) : FetchResult

/-- The `try` block of one source: every error ends in the `catch`, which
only logs it. -/
def runSource (parser : JSON → Str → StrSet → Outcome) (r : FetchResult) (domain : Str)
    (subdomains : StrSet) : StrSet :=
  match r with
  | .failed => subdomains
  | .response ok body =>
    if !ok then subdomains
    else
      match body with
      | none => subdomains
      | some data => (parser data domain subdomains).set

/-- The network as one `getSubdomains` call sees it: the outcome of each
request, and which source's callback resumes first (each callback runs its
parser without interruption). -/
structure Net where
  crt : FetchResult
  otx : FetchResult
  crtFirst : Bool

/-- The set `subdomains` once `Promise.allSettled` has resolved. -/
def gather (U : CaseTable) (domain : Str) (net : Net) : StrSet :=
  if net.crtFirst then
    runSource (alienvaultParser U) net.otx domain (runSource (crtShParser U) net.crt domain [])
  else
    runSource (crtShParser U) net.crt domain (runSource (alienvaultParser U) net.otx domain [])

/-- Embedding of `domain.replace(/\./g, '\\.')`. -/
def escapeDots (domain : Str) : Str :=
  domain.flatMap (fun c => if c = '.' then ['\\', '.'] else [c])

/-- Line terminators, which `.` does not match. -/
def isLineTerminator (c : Char) : Bool :=
  c == '\n' || c == '\r' || c.toNat == 0x2028 || c.toNat == 0x2029

/-- Pattern text made of ordinary characters, `.` and escaped characters,
read as a regular expression followed by `k`.  The text comes from a domain
accepted by `validateDomain`, whose characters are letters, digits, `-`
and `.`, so no other metacharacter occurs in it. -/
def compilePattern : Str → Regex → Regex
  | [], k => k
  | '\\' :: c :: rest, k => .seq (.chr c) (compilePattern rest k)
  | c :: rest, k =>
    if c = '.' then .seq (.cls (fun x => !isLineTerminator x)) (compilePattern rest k)
    else .seq (.chr c) (compilePattern rest k)

/-- The regular expression `domainPattern` of `getSubdomains`. -/
def domainPattern (domain : Str) : Regex :=
  .seq (.alt .bol (.chr '.')) (compilePattern (escapeDots domain) .eol)

/-- Embedding of `getSubdomains(domain)`. -/
def getSubdomains (U : CaseTable) (domain : Str) (net : Net) : List Str :=
  (gather U domain net).filter (fun sub => (domainPattern domain).test sub)

/-! ## Handler -/

/-- Content of a cache file; `timestamp` is `new Date(timestamp).getTime()`. -/
structure CacheData where
  domain : Str
  subdomains : List Str
  timestamp : Int

/-- The files of `CACHE_DIR`, by file name. -/
abbrev Files := Str → Option CacheData

/-- Embedding of `unlinkSync(file)`. -/
def Files.unlink (files : Files) (file : Str) : Files :=
  fun f => if f = file then none else files f

/-- Embedding of `writeFileSync(file, JSON.stringify(data))`. -/
def Files.write (files : Files) (file : Str) (data : CacheData) : Files :=
  fun f => if f = file then some data else files f

/-- The cache lookup of the handler, `if (existsSync(cacheFile)) ...`, with
`new Date()` at time `now`: the cached list when `cachedResult` becomes true,
and the files afterwards.  Loading a file that is not there raises an error,
which the inner `catch` logs. -/
def cacheLookup (files : Files) (cacheFile : Str) (now : Int) : Option (List Str) × Files :=
  match files cacheFile with
  | none => (none, files)
  | some _ =>
    let files := files.unlink cacheFile
    match files cacheFile with
    | none => (none, files)
    | some cacheData =>
      if now - cacheData.timestamp < 24 * 60 * 60 * 1000 then
        (some cacheData.subdomains, files)
      else (none, files)

/-- The handler's treatment of `text` before validation. -/
def stripScheme (text : Str) : Str :=
  if startsWith text "https://".toList then text.drop 8
  else if startsWith text "http://".toList then text.drop 7
  else text

/-- The lines `text = text.trim().toLowerCase(); if (...) ...` of the
handler; `stripScheme` is `text.replace(/^https?:\/\//, '')`. -/
def normalize (U : CaseTable) (text : Str) : Str :=
  let text := toLowerCase U (trim text)
  if startsWith text "http://".toList || startsWith text "https://".toList then
    let text := stripScheme text
    (split '/' text).headD []
  else text

/-- The validation step of the handler: the domain it goes on with, or `none`
when it replies with the usage text or with the format error. -/
def validate (U : CaseTable) (text : Str) : Option Str :=
  if text.isEmpty then none
  else
    let text := normalize U text
    if validateDomain text then some text else none

/-- The state the handler works on: the module-level `rateLimiter` and the
cache directory. -/
structure World (κ : Type) where
  rateLimiter : RateLimiter κ
  files : Files

/-- The readings of the clock during one handler call. -/
structure Clock where
  isAllowed : Int
  waitTime : Int
  cacheRead : Int
  cacheWrite : Int

/-- What the handler answers. -/
inductive Reply where
  | usage : Reply
  | invalidFormat : Reply
  | rateLimited (waitTime : Int) : Reply
  | notFound (domain : Str) : Reply
  | result (domain : Str) (subdomains : List Str) (cachedResult : Bool) : Reply
  deriving DecidableEq

/-- Embedding of `subdomains.sort()`. -/
def sortStrings (l : List Str) : List Str :=
  l.insertionSort (fun a b => a ≤ b)

/-- The handler, up to the data it hands to the message layer.  The name of
the cache file is given by `getDomainHash`, the MD5 digest of the domain;
`waitTime` is `Math.ceil` of a non-negative number of milliseconds divided
by 1000. -/
def handler {κ : Type} [DecidableEq κ] (U : CaseTable) (getDomainHash : Str → Str)
    (w : World κ)
    (sender : κ) (text : Str) (clock : Clock) (net : Net) : Reply × World κ :=
  if text.isEmpty then (.usage, w)
  else
    let text := normalize U text
    if !validateDomain text then (.invalidFormat, w)
    else
      let allowed := w.rateLimiter.isAllowed sender clock.isAllowed
      let w := { w with rateLimiter := allowed.2 }
      if !allowed.1 then
        let waitTime := (w.rateLimiter.getTimeUntilNextAllowed sender clock.waitTime + 999) / 1000
        (.rateLimited waitTime, w)
      else
        let cacheFile := getDomainHash text
        let cached := cacheLookup w.files cacheFile clock.cacheRead
        let w := { w with files := cached.2 }
        let r : List Str × Bool × World κ :=
          match cached.1 with
          | some subdomains => (subdomains, true, w)
          | none =>
            let subdomains := getSubdomains U text net
            (subdomains, false,
              { w with files := w.files.write cacheFile ⟨text, subdomains, clock.cacheWrite⟩ })
        if r.1.isEmpty then (.notFound text, r.2.2)
        else (.result text (sortStrings r.1) r.2.1, r.2.2)

/-! ## Sample data -/

/-- Lowering of one character for the examples: the Kelvin sign becomes `k`,
the capital letters of Latin-1 (U+00C0 to U+00DE, the multiplication sign
apart) become their small letters, every other character outside ASCII is
left as it is.  On ASCII, on the Kelvin sign and on Latin-1 this is what
Unicode prescribes. -/
def sampleLower (c : Char) : Char :=
  if c.toNat < 128 then c.toLower
  else if c.toNat = 0x212A then 'k'
  else if 0xC0 ≤ c.toNat ∧ c.toNat ≤ 0xDE ∧ c.toNat ≠ 0xD7 then Char.ofNat (c.toNat + 32)
  else c

/-- The sample table: it does not look at the context. -/
def sampleTable : CaseTable := fun _ c _ => [sampleLower c]

/-- The domain `example.com`. -/
def exampleCom : Str := "example.com".toList

/-- A certificate list with one entry naming `a.example.com`. -/
def crtSample : JSON :=
  .arr [.obj [("name_value".toList, .str "a.example.com".toList)]]

/-- A passive-DNS payload with one record for `b.example.com`. -/
def otxSample : JSON :=
  .obj [("passive_dns".toList, .arr [.obj [("hostname".toList, .str "b.example.com".toList)]])]

/-- A certificate list whose second entry is `null`, followed by a further
entry. -/
def crtMalformed : JSON :=
  .arr [.obj [("name_value".toList, .str "a.example.com".toList)], .null,
    .obj [("name_value".toList, .str "c.example.com".toList)]]

/-- A passive-DNS payload whose second record has a number as hostname,
followed by a further record. -/
def otxMalformed : JSON :=
  .obj [("passive_dns".toList, .arr [.obj [("hostname".toList, .str "b.example.com".toList)],
    .obj [("hostname".toList, .num 5)],
    .obj [("hostname".toList, .str "d.example.com".toList)]])]

/-- A limiter and an empty cache directory, as when the module is loaded. -/
def freshWorld : World Nat :=
  { rateLimiter := RateLimiter.new Nat 10 180000, files := fun _ => none }

/-- A network on which only the certificate source answers, with `crtSample`. -/
def netCrtOnly : Net := ⟨.response true (some crtSample), .failed, true⟩

/-- A network on which both requests fail. -/
def netDown : Net := ⟨.failed, .failed, true⟩

/-- A passive-DNS payload with one record, for `SUB.EXAMPLE.COM`. -/
def otxUpper : JSON :=
  .obj [("passive_dns".toList, .arr [.obj [("hostname".toList, .str "SUB.EXAMPLE.COM".toList)]])]

/-- A certificate list with one entry, naming `SUB.EXAMPLE.COM`. -/
def crtUpper : JSON :=
  .arr [.obj [("name_value".toList, .str "SUB.EXAMPLE.COM".toList)]]

/-- A certificate list with one entry, naming `É.EXAMPLE.COM`. -/
def crtLatin : JSON :=
  .arr [.obj [("name_value".toList, .str "\u00C9.EXAMPLE.COM".toList)]]

/-- The network with the two callbacks resuming in the other order. -/
def Net.swap (net : Net) : Net := { net with crtFirst := !net.crtFirst }

/-! ## Specification predicates -/

/-- A run of 1 to 63 characters of `[a-zA-Z0-9-]`. -/
def IsLabel (w : Str) : Prop :=
  1 ≤ w.length ∧ w.length ≤ 63 ∧ ∀ c ∈ w, isLabelChar c = true

/-- A run of 2 to 63 letters. -/
def IsTld (w : Str) : Prop :=
  2 ≤ w.length ∧ w.length ≤ 63 ∧ ∀ c ∈ w, isLetter c = true

/-- The text `l₁.l₂.….lₖ.tld`. -/
def dotted (labels : List Str) (tld : Str) : Str :=
  (labels.map (fun w => w ++ ['.'])).flatten ++ tld

/-- The hostname is the domain or ends with a dot followed by the domain. -/
def inScope (domain h : Str) : Bool :=
  h == domain || endsWith h ('.' :: domain)

/-- A character that can occur in a validated domain. -/
def isDomainChar (c : Char) : Bool :=
  isLabelChar c || c == '.'

/-- The request failed or the response has a non-success status. -/
def FetchResult.isFailure : FetchResult → Bool
  | .failed => true
  | .response ok _ => !ok

/-- A run over the shared set that raises the same error and inserts the
same hostnames whatever the set it starts from. -/
def AdditiveRun (g : StrSet → Outcome) : Prop :=
  ∀ s, (g s).threw = (g []).threw ∧ ∀ h, h ∈ (g s).set ↔ h ∈ s ∨ h ∈ (g []).set

/-- No caller's stored sequence is longer than `maxRequests`. -/
def LengthBounded {κ : Type} (rl : RateLimiter κ) : Prop :=
  ∀ u l, rl.requests u = some l → l.length ≤ rl.maxRequests

/-- No stored timestamp is later than `T`. -/
def TimeBounded {κ : Type} (rl : RateLimiter κ) (T : Int) : Prop :=
  ∀ u l, rl.requests u = some l → ∀ t ∈ l, t ≤ T

/-- The set has no duplicates and every text in it has the property `P`. -/
def NodupAll (P : Str → Prop) (s : StrSet) : Prop :=
  s.Nodup ∧ ∀ h ∈ s, P h

/-- The lower-case mappings of the table hold no capital letter `A`-`Z`, as is
the case of Unicode's. -/
def NoCapital (U : CaseTable) : Prop :=
  ∀ before c after, 128 ≤ c.toNat →
    ∀ x ∈ U before c after, ¬(65 ≤ x.toNat ∧ x.toNat ≤ 90)

/-- Lowering a lowered text changes nothing, as is the case with Unicode's
mappings, whose characters are their own lower-case forms. -/
def Idempotent (U : CaseTable) : Prop :=
  ∀ s, toLowerCase U (toLowerCase U s) = toLowerCase U s

/-- Lowering of the letters `A`-`Z` alone. -/
def asciiLower (s : Str) : Str := s.map Char.toLower

/-- The text holds ASCII characters only. -/
def IsAscii (s : Str) : Prop := ∀ c ∈ s, c.toNat < 128

instance (s : Str) : Decidable (IsAscii s) := by
  unfold IsAscii
  infer_instance

/-! ## Regular expressions: properties -/

variable {U : CaseTable}

theorem mem_run_cls {p : Char → Bool} {n : Nat} {r t : Str} :
    t ∈ (Regex.cls p).run n r ↔ ∃ c, p c = true ∧ r = c :: t := by
  cases r with
  | nil => simp [Regex.run]
  | cons c r =>
    by_cases h : p c = true
    · simp only [Regex.run, h, if_true, List.mem_singleton]
      constructor
      · rintro rfl; exact ⟨c, h, rfl⟩
      · rintro ⟨x, -, hx⟩
        exact ((List.cons.inj hx).2).symm
    · simp only [Regex.run, h, Bool.false_eq_true, if_false, List.not_mem_nil, false_iff]
      rintro ⟨x, hx, hc⟩
      rw [(List.cons.inj hc).1] at h
      exact h hx

theorem mem_run_chr {c : Char} {n : Nat} {r t : Str} :
    t ∈ (Regex.chr c).run n r ↔ r = c :: t := by
  unfold Regex.chr
  rw [mem_run_cls]
  constructor
  · rintro ⟨x, hx, rfl⟩
    simp at hx; rw [hx]
  · intro h; exact ⟨c, by simp, h⟩

theorem mem_run_seq {a b : Regex} {n : Nat} {r t : Str} :
    t ∈ (Regex.seq a b).run n r ↔ ∃ m, m ∈ a.run n r ∧ t ∈ b.run n m := by
  simp [Regex.run, List.mem_flatMap]

theorem mem_run_eol {n : Nat} {r t : Str} :
    t ∈ Regex.eol.run n r ↔ r = [] ∧ t = [] := by
  cases r <;> simp [Regex.run]

/-- Repetition of a matcher that removes one piece from the front: the input
is a sequence of pieces followed by the remainder. -/
theorem mem_repeatRun {f : Str → List Str} {P : Str → Prop}
    (hf : ∀ r m, m ∈ f r ↔ ∃ p, P p ∧ r = p ++ m) :
    ∀ hi lo r t, t ∈ repeatRun f lo hi r ↔
      ∃ ps : List Str, lo ≤ ps.length ∧ ps.length ≤ hi ∧ (∀ p ∈ ps, P p) ∧
        r = ps.flatten ++ t := by
  intro hi
  induction hi with
  | zero =>
    intro lo r t
    cases lo with
    | zero =>
      simp only [repeatRun, List.mem_singleton]
      constructor
      · rintro rfl; exact ⟨[], by simp⟩
      · rintro ⟨ps, -, h, -, rfl⟩
        have : ps = [] := List.length_eq_zero.mp (Nat.le_zero.mp h)
        subst this; simp
    | succ lo =>
      simp only [repeatRun, List.not_mem_nil, false_iff]
      rintro ⟨ps, h1, h2, -⟩
      omega
  | succ hi ih =>
    intro lo r t
    cases lo with
    | zero =>
      simp only [repeatRun, List.mem_cons, List.mem_flatMap]
      constructor
      · rintro (rfl | ⟨m, hm, ht⟩)
        · exact ⟨[], by simp⟩
        · obtain ⟨p, hp, rfl⟩ := (hf _ _).mp hm
          obtain ⟨ps, -, h2, h3, rfl⟩ := (ih 0 m t).mp ht
          refine ⟨p :: ps, by simp, by simpa using h2, ?_, by simp⟩
          intro q hq
          rcases List.mem_cons.mp hq with rfl | hq
          · exact hp
          · exact h3 q hq
      · rintro ⟨ps, -, h2, h3, rfl⟩
        cases ps with
        | nil => left; simp
        | cons p ps =>
          right
          refine ⟨ps.flatten ++ t, (hf _ _).mpr ⟨p, h3 p (by simp), by simp⟩, ?_⟩
          exact (ih 0 _ t).mpr ⟨ps, by simp, by simpa using h2,
            fun q hq => h3 q (List.mem_cons_of_mem _ hq), rfl⟩
    | succ lo =>
      simp only [repeatRun, List.mem_flatMap]
      constructor
      · rintro ⟨m, hm, ht⟩
        obtain ⟨p, hp, rfl⟩ := (hf _ _).mp hm
        obtain ⟨ps, h1, h2, h3, rfl⟩ := (ih lo m t).mp ht
        refine ⟨p :: ps, by simpa using h1, by simpa using h2, ?_, by simp⟩
        intro q hq
        rcases List.mem_cons.mp hq with rfl | hq
        · exact hp
        · exact h3 q hq
      · rintro ⟨ps, h1, h2, h3, rfl⟩
        cases ps with
        | nil => simp at h1
        | cons p ps =>
          refine ⟨ps.flatten ++ t, (hf _ _).mpr ⟨p, h3 p (by simp), by simp⟩, ?_⟩
          exact (ih lo _ t).mpr ⟨ps, by simpa using h1, by simpa using h2,
            fun q hq => h3 q (List.mem_cons_of_mem _ hq), rfl⟩

theorem flatten_singletons (w : Str) : (w.map (fun c => [c])).flatten = w := by
  induction w with
  | nil => rfl
  | cons c w ih => simp [ih]

theorem singletons_of_pieces {p : Char → Bool} :
    ∀ ps : List Str, (∀ q ∈ ps, ∃ c, p c = true ∧ q = [c]) →
      ps.flatten.length = ps.length ∧ ∀ c ∈ ps.flatten, p c = true
  | [], _ => by simp
  | q :: ps, h => by
    obtain ⟨c, hc, rfl⟩ := h q (by simp)
    obtain ⟨h1, h2⟩ := singletons_of_pieces ps (fun q hq => h q (List.mem_cons_of_mem _ hq))
    refine ⟨by simp [h1], ?_⟩
    intro x hx
    simp only [List.flatten_cons, List.singleton_append, List.mem_cons] at hx
    rcases hx with rfl | hx
    · exact hc
    · exact h2 x hx

/-- The remainders of `[class]{lo,hi}`: a word of `lo` to `hi` characters of the
class has been removed. -/
theorem mem_run_rep_cls {p : Char → Bool} {lo hi n : Nat} {r t : Str} :
    t ∈ (Regex.rep (.cls p) lo hi).run n r ↔
      ∃ w : Str, lo ≤ w.length ∧ w.length ≤ hi ∧ (∀ c ∈ w, p c = true) ∧ r = w ++ t := by
  have hf : ∀ r m, m ∈ (Regex.cls p).run n r ↔ ∃ q, (∃ c, p c = true ∧ q = [c]) ∧ r = q ++ m := by
    intro r m
    rw [mem_run_cls]
    constructor
    · rintro ⟨c, hc, rfl⟩; exact ⟨[c], ⟨c, hc, rfl⟩, rfl⟩
    · rintro ⟨q, ⟨c, hc, rfl⟩, rfl⟩; exact ⟨c, hc, rfl⟩
  show t ∈ repeatRun ((Regex.cls p).run n) lo hi r ↔ _
  rw [mem_repeatRun hf]
  constructor
  · rintro ⟨ps, h1, h2, h3, rfl⟩
    obtain ⟨h4, h5⟩ := singletons_of_pieces ps h3
    exact ⟨ps.flatten, by omega, by omega, h5, rfl⟩
  · rintro ⟨w, h1, h2, h3, rfl⟩
    refine ⟨w.map (fun c => [c]), by simpa using h1, by simpa using h2, ?_, by
      rw [flatten_singletons]⟩
    intro q hq
    obtain ⟨c, hc, rfl⟩ := List.mem_map.mp hq
    exact ⟨c, h3 c hc, rfl⟩

theorem length_le_flatten :
    ∀ ps : List Str, (∀ q ∈ ps, q ≠ []) → ps.length ≤ ps.flatten.length
  | [], _ => by simp
  | q :: ps, h => by
    have h1 := length_le_flatten ps (fun q hq => h q (List.mem_cons_of_mem _ hq))
    have h2 : 0 < q.length := List.length_pos.mpr (h q (by simp))
    simp only [List.flatten_cons, List.length_append, List.length_cons]
    omega

/-- The remainders of `(?:[a-zA-Z0-9-]{1,63}\.)+`: one or more labels, each
followed by a dot, have been removed. -/
theorem mem_run_labels {n : Nat} {r t : Str} :
    t ∈ (Regex.plus (.seq (.rep (.cls isLabelChar) 1 63) (.chr '.'))).run n r ↔
      ∃ labels : List Str, labels ≠ [] ∧ (∀ w ∈ labels, IsLabel w) ∧ r = dotted labels t := by
  have hf : ∀ r m, m ∈ (Regex.seq (.rep (.cls isLabelChar) 1 63) (.chr '.')).run n r ↔
      ∃ q, (∃ w, IsLabel w ∧ q = w ++ ['.']) ∧ r = q ++ m := by
    intro r m
    rw [mem_run_seq]
    constructor
    · rintro ⟨x, hx, hm⟩
      rw [mem_run_chr] at hm
      obtain ⟨w, h1, h2, h3, rfl⟩ := mem_run_rep_cls.mp hx
      subst hm
      exact ⟨w ++ ['.'], ⟨w, ⟨h1, h2, h3⟩, rfl⟩, by simp⟩
    · rintro ⟨q, ⟨w, ⟨h1, h2, h3⟩, rfl⟩, rfl⟩
      exact ⟨'.' :: m, mem_run_rep_cls.mpr ⟨w, h1, h2, h3, by simp⟩, mem_run_chr.mpr rfl⟩
  show t ∈ repeatRun _ 1 (r.length + 1) r ↔ _
  rw [mem_repeatRun hf]
  constructor
  · rintro ⟨ps, h1, -, h3, rfl⟩
    have hall : ∀ q ∈ ps, ∃ w, IsLabel w ∧ q = w ++ ['.'] := h3
    clear h3
    induction ps with
    | nil => simp at h1
    | cons q ps ih =>
      obtain ⟨w, hw, rfl⟩ := hall q (by simp)
      by_cases hps : ps = []
      · subst hps
        exact ⟨[w], by simp, by simpa using hw, by simp [dotted]⟩
      · have hlen : 1 ≤ ps.length := by
          cases ps with
          | nil => exact absurd rfl hps
          | cons _ _ => simp
        obtain ⟨labels, -, hl, he⟩ := ih hlen (fun q hq => hall q (List.mem_cons_of_mem _ hq))
        refine ⟨w :: labels, by simp, ?_, ?_⟩
        · intro x hx
          rcases List.mem_cons.mp hx with rfl | hx
          · exact hw
          · exact hl x hx
        · simp only [dotted, List.map_cons, List.flatten_cons, List.append_assoc] at he ⊢
          rw [he]
  · rintro ⟨labels, hne, hl, rfl⟩
    refine ⟨labels.map (fun w => w ++ ['.']), ?_, ?_, ?_, rfl⟩
    · cases labels with
      | nil => exact absurd rfl hne
      | cons _ _ => simp
    · have := length_le_flatten (labels.map (fun w => w ++ ['.'])) (by
        intro q hq
        obtain ⟨w, -, rfl⟩ := List.mem_map.mp hq
        simp)
      rw [dotted, List.length_append]
      exact Nat.le_succ_of_le (Nat.le_trans this (Nat.le_add_right _ _))
    · intro q hq
      obtain ⟨w, hw, rfl⟩ := List.mem_map.mp hq
      exact ⟨w, hl w hw, rfl⟩

theorem mem_run_bol {n : Nat} {r t : Str} :
    t ∈ Regex.bol.run n r ↔ r.length = n ∧ t = r := by
  by_cases h : r.length = n <;> simp [Regex.run, h]

theorem mem_run_nla {a : Regex} {n : Nat} {r t : Str} :
    t ∈ (Regex.nla a).run n r ↔ a.run n r = [] ∧ t = r := by
  by_cases h : a.run n r = [] <;> simp [Regex.run, h]

theorem run_chr_eq_nil {c : Char} {n : Nat} {r : Str} :
    (Regex.chr c).run n r = [] ↔ r.head? ≠ some c := by
  rw [List.eq_nil_iff_forall_not_mem]
  constructor
  · intro h hr
    cases r with
    | nil => simp at hr
    | cons x r =>
      simp only [List.head?_cons, Option.some.injEq] at hr
      subst hr
      exact h r (mem_run_chr.mpr rfl)
  · intro h t ht
    rw [mem_run_chr] at ht
    subst ht
    simp at h

theorem test_iff (r : Regex) (s : Str) :
    r.test s = true ↔ ∃ i, i ≤ s.length ∧ ∃ t, t ∈ r.run s.length (s.drop i) := by
  unfold Regex.test
  rw [List.any_eq_true]
  constructor
  · rintro ⟨i, hi, h⟩
    refine ⟨i, Nat.lt_succ_iff.mp (List.mem_range.mp hi), ?_⟩
    cases hl : r.run s.length (s.drop i) with
    | nil => simp [hl] at h
    | cons t _ => exact ⟨t, by simp⟩
  · rintro ⟨i, hi, t, ht⟩
    refine ⟨i, List.mem_range.mpr (Nat.lt_succ_iff.mpr hi), ?_⟩
    cases hl : r.run s.length (s.drop i) with
    | nil => rw [hl] at ht; simp at ht
    | cons _ _ => simp

theorem drop_eq_self_of_length {s : Str} {i : Nat} (h : (s.drop i).length = s.length) :
    s.drop i = s := by
  rw [List.length_drop] at h
  cases i with
  | zero => rfl
  | succ i =>
    have h0 : s.length = 0 := by omega
    have : s = [] := List.length_eq_zero.mp h0
    subst this; rfl

/-- The grammar of the validator: the text does not start with a hyphen and
is one or more labels, each followed by a dot, and a final run of 2 to 63
letters. -/
theorem validateDomain_iff (s : Str) :
    validateDomain s = true ↔
      s.head? ≠ some '-' ∧
      ∃ labels tld, labels ≠ [] ∧ (∀ w ∈ labels, IsLabel w) ∧ IsTld tld ∧
        s = dotted labels tld := by
  unfold validateDomain
  rw [test_iff]
  unfold domainRegex
  constructor
  · rintro ⟨i, -, t, ht⟩
    obtain ⟨m1, hm1, ht1⟩ := mem_run_seq.mp ht
    obtain ⟨hlen, hm1⟩ := mem_run_bol.mp hm1
    rw [hm1, drop_eq_self_of_length hlen] at ht1
    obtain ⟨m2, hm2, ht2⟩ := mem_run_seq.mp ht1
    obtain ⟨hhead, hm2⟩ := mem_run_nla.mp hm2
    rw [hm2] at ht2
    obtain ⟨m3, hm3, ht3⟩ := mem_run_seq.mp ht2
    obtain ⟨labels, hne, hl, hs⟩ := mem_run_labels.mp hm3
    obtain ⟨m4, hm4, ht4⟩ := mem_run_seq.mp ht3
    obtain ⟨tld, h1, h2, h3, hm3⟩ := mem_run_rep_cls.mp hm4
    obtain ⟨hm4, -⟩ := mem_run_eol.mp ht4
    refine ⟨run_chr_eq_nil.mp hhead, labels, tld, hne, hl, ⟨h1, h2, h3⟩, ?_⟩
    rw [hs, hm3, hm4, List.append_nil]
  · rintro ⟨hhead, labels, tld, hne, hl, ⟨h1, h2, h3⟩, hs⟩
    refine ⟨0, Nat.zero_le _, [], ?_⟩
    rw [List.drop_zero]
    refine mem_run_seq.mpr ⟨s, mem_run_bol.mpr ⟨rfl, rfl⟩, ?_⟩
    refine mem_run_seq.mpr ⟨s, mem_run_nla.mpr ⟨run_chr_eq_nil.mpr hhead, rfl⟩, ?_⟩
    refine mem_run_seq.mpr ⟨tld, mem_run_labels.mpr ⟨labels, hne, hl, hs⟩, ?_⟩
    exact mem_run_seq.mpr ⟨[], mem_run_rep_cls.mpr ⟨tld, h1, h2, h3, by simp⟩,
      mem_run_eol.mpr ⟨rfl, rfl⟩⟩

/-! ## Characters -/

theorem char_eq_iff_toNat (c d : Char) : c = d ↔ c.toNat = d.toNat := by
  constructor
  · rintro rfl; rfl
  · intro h
    rw [← Char.ofNat_toNat c, ← Char.ofNat_toNat d, h]

theorem toLower_of_not_upper {c : Char} (h : ¬(65 ≤ c.toNat ∧ c.toNat ≤ 90)) :
    c.toLower = c := by
  simp [Char.toLower, h]

theorem toLower_upper {c : Char} (h : 65 ≤ c.toNat ∧ c.toNat ≤ 90) :
    97 ≤ c.toLower.toNat ∧ c.toLower.toNat ≤ 122 := by
  have key : ∀ n, 65 ≤ n → n ≤ 90 →
      97 ≤ (Char.ofNat n).toLower.toNat ∧ (Char.ofNat n).toLower.toNat ≤ 122 := by
    intro n h1 h2
    interval_cases n <;> decide
  have := key c.toNat h.1 h.2
  rwa [Char.ofNat_toNat] at this

/-- Lowering a character gives the character itself or a letter `a`-`z`. -/
theorem toLower_cases (c : Char) :
    c.toLower = c ∨ (65 ≤ c.toNat ∧ c.toNat ≤ 90 ∧ 97 ≤ c.toLower.toNat ∧ c.toLower.toNat ≤ 122) := by
  by_cases h : 65 ≤ c.toNat ∧ c.toNat ≤ 90
  · exact Or.inr ⟨h.1, h.2, toLower_upper h⟩
  · exact Or.inl (toLower_of_not_upper h)

theorem toLower_idem (c : Char) : c.toLower.toLower = c.toLower := by
  rcases toLower_cases c with h | ⟨-, -, h1, h2⟩
  · rw [h, h]
  · exact toLower_of_not_upper (by omega)

theorem isLetter_toLower {c : Char} (h : isLetter c = true) : isLetter c.toLower = true := by
  rcases toLower_cases c with h' | ⟨-, -, h1, h2⟩
  · rwa [h']
  · simp only [isLetter, Bool.or_eq_true, Bool.and_eq_true, decide_eq_true_eq]
    exact Or.inl ⟨h1, h2⟩

theorem isLabelChar_toLower {c : Char} (h : isLabelChar c = true) :
    isLabelChar c.toLower = true := by
  rcases toLower_cases c with h' | ⟨-, -, h1, h2⟩
  · rwa [h']
  · simp only [isLabelChar, isLetter, Bool.or_eq_true, Bool.and_eq_true, decide_eq_true_eq]
    exact Or.inl (Or.inl (Or.inl ⟨h1, h2⟩))

/-- A character other than a capital letter is not produced from another
character by lowering. -/
theorem toLower_eq_of_not_letter {c x : Char} (hx : ¬(97 ≤ x.toNat ∧ x.toNat ≤ 122))
    (h : c.toLower = x) : c = x := by
  rcases toLower_cases c with h' | ⟨-, -, h1, h2⟩
  · rw [← h, h']
  · rw [h] at h1 h2
    exact absurd ⟨h1, h2⟩ hx

theorem isDomainChar_not_whiteSpace {c : Char} (h : isDomainChar c = true) :
    isWhiteSpace c = false := by
  have hdot : ('.' : Char).toNat = 46 := by decide
  simp only [isDomainChar, isLabelChar, isLetter, Bool.or_eq_true, Bool.and_eq_true,
    decide_eq_true_eq, beq_iff_eq] at h
  have hn : (45 ≤ c.toNat ∧ c.toNat ≤ 122) := by
    rcases h with ((h | h) | h) | h
    · omega
    · omega
    · omega
    · rw [h, hdot]; omega
  simp only [isWhiteSpace, Bool.or_eq_false_iff, Bool.and_eq_false_imp, beq_eq_false_iff_ne,
    decide_eq_true_eq, decide_eq_false_iff_not]
  omega

/-! ## Validator: consequences of the grammar -/

theorem isLetter_isLabelChar {c : Char} (h : isLetter c = true) : isLabelChar c = true := by
  simp [isLabelChar, h]

theorem validateDomain_chars {s : Str} (h : validateDomain s = true) :
    ∀ c ∈ s, isDomainChar c = true := by
  obtain ⟨-, labels, tld, -, hl, ⟨-, -, ht⟩, rfl⟩ := (validateDomain_iff s).mp h
  intro c hc
  simp only [dotted, List.mem_append, List.mem_flatten, List.mem_map] at hc
  rcases hc with ⟨q, ⟨w, hw, rfl⟩, hc⟩ | hc
  · rcases List.mem_append.mp hc with hc | hc
    · simp [isDomainChar, (hl w hw).2.2 c hc]
    · simp only [List.mem_singleton] at hc
      simp [isDomainChar, hc]
  · simp [isDomainChar, isLetter_isLabelChar (ht c hc)]

/-- A validated text starts with a character of its first label. -/
theorem validateDomain_head {s : Str} (h : validateDomain s = true) :
    ∃ c rest, s = c :: rest ∧ isLabelChar c = true := by
  obtain ⟨-, labels, tld, hne, hl, -, rfl⟩ := (validateDomain_iff s).mp h
  cases labels with
  | nil => exact absurd rfl hne
  | cons w labels =>
    obtain ⟨h1, -, h3⟩ := hl w (by simp)
    cases w with
    | nil => simp at h1
    | cons c w =>
      exact ⟨c, w ++ '.' :: ((labels.map (fun w => w ++ ['.'])).flatten ++ tld),
        by simp [dotted], h3 c (by simp)⟩

theorem validateDomain_mem_dot {s : Str} (h : validateDomain s = true) : '.' ∈ s := by
  obtain ⟨-, labels, tld, hne, -, -, rfl⟩ := (validateDomain_iff s).mp h
  cases labels with
  | nil => exact absurd rfl hne
  | cons w labels => simp [dotted]

/-- A validated text ends with a letter. -/
theorem validateDomain_getLast {s : Str} (h : validateDomain s = true) :
    ∃ c, s.getLast? = some c ∧ isLetter c = true := by
  obtain ⟨-, labels, tld, -, -, ⟨h1, -, h3⟩, rfl⟩ := (validateDomain_iff s).mp h
  have hne : tld ≠ [] := by
    intro h0; subst h0; simp at h1
  refine ⟨tld.getLast hne, ?_, h3 _ (List.getLast_mem hne)⟩
  rw [dotted, List.getLast?_append, List.getLast?_eq_getLast _ hne]
  rfl

theorem dotted_asciiLower (labels : List Str) (tld : Str) :
    asciiLower (dotted labels tld) = dotted (labels.map asciiLower) (asciiLower tld) := by
  have hdot : Char.toLower '.' = '.' := by decide
  simp only [asciiLower, dotted, List.map_append, List.map_flatten, List.map_map]
  congr 2
  apply List.map_congr_left
  intro w _
  simp [hdot, asciiLower]

theorem validateDomain_asciiLower {s : Str} (h : validateDomain s = true) :
    validateDomain (asciiLower s) = true := by
  obtain ⟨c, rest, hs, hc⟩ := validateDomain_head h
  obtain ⟨hhead, labels, tld, hne, hl, ⟨t1, t2, t3⟩, rfl⟩ := (validateDomain_iff s).mp h
  rw [validateDomain_iff]
  refine ⟨?_, labels.map asciiLower, asciiLower tld, by simpa using hne, ?_, ?_,
    dotted_asciiLower labels tld⟩
  · rw [hs] at hhead ⊢
    simp only [asciiLower, List.map_cons, List.head?_cons, ne_eq, Option.some.injEq] at hhead ⊢
    intro hlow
    exact hhead (toLower_eq_of_not_letter (by decide) hlow)
  · intro w hw
    obtain ⟨v, hv, rfl⟩ := List.mem_map.mp hw
    obtain ⟨l1, l2, l3⟩ := hl v hv
    refine ⟨by simpa [asciiLower] using l1, by simpa [asciiLower] using l2, ?_⟩
    intro x hx
    obtain ⟨y, hy, rfl⟩ := List.mem_map.mp hx
    exact isLabelChar_toLower (l3 y hy)
  · refine ⟨by simpa [asciiLower] using t1, by simpa [asciiLower] using t2, ?_⟩
    intro x hx
    obtain ⟨y, hy, rfl⟩ := List.mem_map.mp hx
    exact isLetter_toLower (t3 y hy)

/-! ## Lowering -/

theorem toLower_toNat_lt {c : Char} (h : c.toNat < 128) : c.toLower.toNat < 128 := by
  rcases toLower_cases c with h' | ⟨-, -, -, h2⟩
  · rwa [h']
  · omega

/-- On ASCII text the table is not consulted. -/
theorem lowerFrom_append_ascii (U : CaseTable) :
    ∀ (a before y : Str), IsAscii a →
      lowerFrom U before (a ++ y) = asciiLower a ++ lowerFrom U (before ++ a) y
  | [], before, y, _ => by simp [asciiLower]
  | c :: a, before, y, h => by
    have hc : c.toNat < 128 := h c (by simp)
    have ih := lowerFrom_append_ascii U a (before ++ [c]) y
      (fun x hx => h x (List.mem_cons_of_mem _ hx))
    show (if c.toNat < 128 then [c.toLower] else U before c (a ++ y))
        ++ lowerFrom U (before ++ [c]) (a ++ y) = _
    rw [if_pos hc, ih]
    simp [asciiLower]

theorem lowerFrom_nil (U : CaseTable) (before : Str) : lowerFrom U before [] = [] := rfl

theorem toLowerCase_ascii (U : CaseTable) {s : Str} (h : IsAscii s) :
    toLowerCase U s = asciiLower s := by
  have := lowerFrom_append_ascii U s [] [] h
  simpa [toLowerCase, lowerFrom_nil] using this

theorem toLowerCase_append_ascii (U : CaseTable) {a : Str} (y : Str) (h : IsAscii a) :
    toLowerCase U (a ++ y) = asciiLower a ++ lowerFrom U a y := by
  have := lowerFrom_append_ascii U a [] y h
  simpa [toLowerCase] using this

theorem lowerFrom_slash (U : CaseTable) (before y : Str) :
    lowerFrom U before ('/' :: y) = '/' :: lowerFrom U (before ++ ['/']) y := by
  have h : ('/' : Char).toNat < 128 := by decide
  have h' : ('/' : Char).toLower = '/' := by decide
  simp [lowerFrom, h, h']

/-- With a table whose mappings hold no capital letter, a lowered text holds
none. -/
theorem lowerFrom_noCapital (hU : NoCapital U) :
    ∀ (s before : Str), ∀ x ∈ lowerFrom U before s, ¬(65 ≤ x.toNat ∧ x.toNat ≤ 90)
  | [], _, x, hx => by simp [lowerFrom] at hx
  | c :: s, before, x, hx => by
    simp only [lowerFrom, List.mem_append] at hx
    rcases hx with hx | hx
    · by_cases hc : c.toNat < 128
      · simp only [hc, if_true, List.mem_singleton] at hx
        rw [hx]
        rcases toLower_cases c with h' | ⟨-, -, h1, h2⟩
        · intro hcap
          rw [h'] at hcap
          have := toLower_upper hcap
          rw [h'] at this
          omega
        · omega
      · simp only [hc, if_false] at hx
        exact hU before c s (by omega) x hx
    · exact lowerFrom_noCapital hU s _ x hx

theorem isDomainChar_toNat {c : Char} (h : isDomainChar c = true) :
    45 ≤ c.toNat ∧ c.toNat ≤ 122 := by
  have hdot : ('.' : Char).toNat = 46 := by decide
  simp only [isDomainChar, isLabelChar, isLetter, Bool.or_eq_true, Bool.and_eq_true,
    decide_eq_true_eq, beq_iff_eq] at h
  rcases h with ((h | h) | h) | h
  · omega
  · omega
  · omega
  · rw [h, hdot]; omega

theorem validateDomain_isAscii {s : Str} (h : validateDomain s = true) : IsAscii s := by
  intro c hc
  have := isDomainChar_toNat (validateDomain_chars h c hc)
  omega

theorem toLowerCase_validateDomain (U : CaseTable) {s : Str} (h : validateDomain s = true) :
    toLowerCase U s = asciiLower s :=
  toLowerCase_ascii U (validateDomain_isAscii h)

theorem sampleLower_latin (n : Nat) (h1 : 0xC0 ≤ n) (h2 : n ≤ 0xDE) :
    ¬(65 ≤ (Char.ofNat (n + 32)).toNat ∧ (Char.ofNat (n + 32)).toNat ≤ 90) ∧
    sampleLower (Char.ofNat (n + 32)) = Char.ofNat (n + 32) := by
  interval_cases n <;> decide

/-- The sample table maps no character to a capital letter `A`-`Z`. -/
theorem sampleTable_noCapital : NoCapital sampleTable := by
  intro before c after hc x hx
  simp only [sampleTable, List.mem_singleton] at hx
  rw [hx]
  unfold sampleLower
  split
  · omega
  · split
    · decide
    · split
      · rename_i hr
        exact (sampleLower_latin c.toNat hr.1 hr.2.1).1
      · omega

theorem sampleLower_idem (c : Char) : sampleLower (sampleLower c) = sampleLower c := by
  by_cases h1 : c.toNat < 128
  · have e : sampleLower c = c.toLower := by simp [sampleLower, h1]
    rw [e]
    simp [sampleLower, toLower_toNat_lt h1, toLower_idem]
  · by_cases h2 : c.toNat = 0x212A
    · have e : sampleLower c = 'k' := by simp [sampleLower, h1, h2]
      rw [e]; decide
    · by_cases h3 : 0xC0 ≤ c.toNat ∧ c.toNat ≤ 0xDE ∧ c.toNat ≠ 0xD7
      · have e : sampleLower c = Char.ofNat (c.toNat + 32) := by
          unfold sampleLower
          rw [if_neg h1, if_neg h2, if_pos h3]
        rw [e]
        exact (sampleLower_latin c.toNat h3.1 h3.2.1).2
      · have e : sampleLower c = c := by
          unfold sampleLower
          rw [if_neg h1, if_neg h2, if_neg h3]
        rw [e, e]

theorem lowerFrom_sampleTable :
    ∀ (s before : Str), lowerFrom sampleTable before s = s.map sampleLower
  | [], _ => rfl
  | c :: s, before => by
    have ih := lowerFrom_sampleTable s (before ++ [c])
    by_cases h1 : c.toNat < 128
    · have e : sampleLower c = c.toLower := by simp [sampleLower, h1]
      simp [lowerFrom, h1, ih, e]
    · simp [lowerFrom, h1, ih, sampleTable]

/-- Lowering with the sample table is idempotent. -/
theorem sampleTable_idempotent : Idempotent sampleTable := by
  intro s
  simp only [toLowerCase, lowerFrom_sampleTable, List.map_map]
  apply List.map_congr_left
  intro c _
  exact sampleLower_idem c

/-- The validator does not distinguish letter case. -/
theorem validateDomain_toLowerCase {s : Str} (h : validateDomain s = true) :
    validateDomain (toLowerCase U s) = true := by
  rw [toLowerCase_validateDomain U h]
  exact validateDomain_asciiLower h

/-! ## Normalisation of the handler's input -/

theorem dropWhile_append_cons {p : Char → Bool} {c : Char} (hc : p c = false) (b : Str) :
    ∀ a : Str, (a ++ c :: b).dropWhile p = a.dropWhile p ++ c :: b
  | [] => by simp [List.dropWhile, hc]
  | x :: a => by
    by_cases hx : p x = true
    · simp only [List.cons_append, List.dropWhile_cons, hx, if_true]
      exact dropWhile_append_cons hc b a
    · simp [List.dropWhile_cons, hx]

/-- Trimming a text whose first and last characters are not white space
changes nothing. -/
theorem trim_eq_self {s rest : Str} {c l : Char} (hs : s = c :: rest)
    (hc : isWhiteSpace c = false) (hl : s.getLast? = some l) (hw : isWhiteSpace l = false) :
    trim s = s := by
  have h1 : s.dropWhile isWhiteSpace = s := by
    rw [hs]; simp [List.dropWhile_cons, hc]
  have h2 : s.reverse.dropWhile isWhiteSpace = s.reverse := by
    have hh : s.reverse.head? = some l := by rw [List.head?_reverse]; exact hl
    cases hr : s.reverse with
    | nil => rfl
    | cons x xs =>
      rw [hr] at hh
      simp only [List.head?_cons, Option.some.injEq] at hh
      subst hh
      simp [List.dropWhile_cons, hw]
  unfold trim
  rw [h1, h2, List.reverse_reverse]

theorem trim_validateDomain {d : Str} (h : validateDomain d = true) : trim d = d := by
  obtain ⟨c, rest, hs, hc⟩ := validateDomain_head h
  obtain ⟨l, hl, hlet⟩ := validateDomain_getLast h
  exact trim_eq_self hs
    (isDomainChar_not_whiteSpace (by simp [isDomainChar, hc])) hl
    (isDomainChar_not_whiteSpace (by simp [isDomainChar, isLetter_isLabelChar hlet]))

/-- Trimming `a ++ x`, where `a` starts and ends with characters that are
not white space and `x` is empty or starts with `/`, leaves `a` followed by a
text of the same kind. -/
theorem trim_append_path {a rest x : Str} {c l : Char} (ha : a = c :: rest)
    (hc : isWhiteSpace c = false) (hl : a.getLast? = some l) (hw : isWhiteSpace l = false)
    (hx : x = [] ∨ ∃ x', x = '/' :: x') :
    ∃ y, trim (a ++ x) = a ++ y ∧ (y = [] ∨ ∃ y', y = '/' :: y') := by
  rcases hx with rfl | ⟨x', rfl⟩
  · exact ⟨[], by rw [List.append_nil, trim_eq_self ha hc hl hw], Or.inl rfl⟩
  · refine ⟨'/' :: (x'.reverse.dropWhile isWhiteSpace).reverse, ?_, Or.inr ⟨_, rfl⟩⟩
    have hslash : isWhiteSpace '/' = false := by decide
    have h1 : (a ++ '/' :: x').dropWhile isWhiteSpace = a ++ '/' :: x' := by
      rw [ha]; simp [List.dropWhile_cons, hc]
    unfold trim
    rw [h1, List.reverse_append, List.reverse_cons, List.append_assoc, List.singleton_append,
      dropWhile_append_cons hslash]
    simp

theorem split_headD {sep : Char} (y : Str) (hy : y = [] ∨ ∃ y', y = sep :: y') :
    ∀ a : Str, sep ∉ a → (split sep (a ++ y)).headD [] = a
  | [], _ => by
    rcases hy with rfl | ⟨y', rfl⟩
    · rfl
    · simp [split]
  | c :: a, h => by
    have hc : c ≠ sep := fun e => h (by simp [e])
    have ih := split_headD y hy a (fun e => h (List.mem_cons_of_mem _ e))
    simp only [List.cons_append, split, hc, if_false]
    cases hsp : split sep (a ++ y) with
    | nil => rw [hsp] at ih; simp at ih; subst ih; rfl
    | cons w ws => rw [hsp] at ih; simp at ih; subst ih; rfl

theorem mem_split_headD {sep : Char} :
    ∀ (s : Str) (c : Char), c ∈ (split sep s).headD [] → c ∈ s
  | [], c, h => by simp [split] at h
  | x :: s, c, h => by
    by_cases hx : x = sep
    · simp [split, hx] at h
    · simp only [split, hx, if_false] at h
      cases hsp : split sep s with
      | nil =>
        rw [hsp] at h
        simp only [List.headD_cons, List.mem_singleton] at h
        simp [h]
      | cons w ws =>
        rw [hsp] at h
        simp only [List.headD_cons, List.mem_cons] at h
        rcases h with h | h
        · simp [h]
        · exact List.mem_cons_of_mem _ (mem_split_headD s c (by rw [hsp]; exact h))

theorem mem_stripScheme {t : Str} {c : Char} (h : c ∈ stripScheme t) : c ∈ t := by
  unfold stripScheme at h
  split at h
  · exact List.mem_of_mem_drop h
  · split at h
    · exact List.mem_of_mem_drop h
    · exact h

/-- With a table whose mappings hold no capital letter, the normalised text
holds none. -/
theorem normalize_noCapital (hU : NoCapital U) (s : Str) :
    ∀ c ∈ normalize U s, ¬(65 ≤ c.toNat ∧ c.toNat ≤ 90) := by
  have key : ∀ c ∈ toLowerCase U (trim s), ¬(65 ≤ c.toNat ∧ c.toNat ≤ 90) :=
    lowerFrom_noCapital hU (trim s) []
  intro c hc
  unfold normalize at hc
  simp only at hc
  split at hc
  · exact key c (mem_stripScheme (mem_split_headD _ c hc))
  · exact key c hc

theorem asciiLower_eq_self {s : Str} (h : ∀ c ∈ s, c.toLower = c) : asciiLower s = s := by
  unfold asciiLower
  conv_rhs => rw [← List.map_id s]
  exact List.map_congr_left (fun c hc => h c hc)

theorem toLowerCase_eq_self {s : Str} (ha : IsAscii s) (h : ∀ c ∈ s, c.toLower = c) :
    toLowerCase U s = s := by
  rw [toLowerCase_ascii U ha]
  exact asciiLower_eq_self h

theorem startsWith_mem {t p : Str} (h : startsWith t p = true) : ∀ c ∈ p, c ∈ t := by
  intro c hc
  exact (List.isPrefixOf_iff_prefix.mp h).subset hc

/-- A validated lower-case text is left unchanged by the normalisation. -/
theorem normalize_eq_self {d : Str} (hv : validateDomain d = true)
    (hl : ∀ c ∈ d, c.toLower = c) : normalize U d = d := by
  have hcolon : ':' ∉ d := by
    intro h
    have := validateDomain_chars hv ':' h
    revert this; decide
  have h1 : startsWith d "http://".toList = false := by
    cases hsw : startsWith d "http://".toList with
    | false => rfl
    | true => exact absurd (startsWith_mem hsw ':' (by decide)) hcolon
  have h2 : startsWith d "https://".toList = false := by
    cases hsw : startsWith d "https://".toList with
    | false => rfl
    | true => exact absurd (startsWith_mem hsw ':' (by decide)) hcolon
  unfold normalize
  simp only [trim_validateDomain hv, toLowerCase_eq_self (U := U) (validateDomain_isAscii hv) hl,
    h1, h2, Bool.or_self, Bool.false_eq_true, if_false]

theorem validateDomain_no_scheme {d : Str} (hv : validateDomain d = true) :
    startsWith d "http://".toList = false ∧ startsWith d "https://".toList = false := by
  have hcolon : ':' ∉ d := by
    intro h
    have := validateDomain_chars hv ':' h
    revert this; decide
  constructor
  · cases hsw : startsWith d "http://".toList with
    | false => rfl
    | true => exact absurd (startsWith_mem hsw ':' (by decide)) hcolon
  · cases hsw : startsWith d "https://".toList with
    | false => rfl
    | true => exact absurd (startsWith_mem hsw ':' (by decide)) hcolon

theorem validateDomain_no_slash {d : Str} (hv : validateDomain d = true) : '/' ∉ d := by
  intro h
  have := validateDomain_chars hv '/' h
  revert this; decide

theorem lowerFrom_path (U : CaseTable) (before : Str) {y : Str}
    (hy : y = [] ∨ ∃ y', y = '/' :: y') :
    lowerFrom U before y = [] ∨ ∃ y', lowerFrom U before y = '/' :: y' := by
  rcases hy with rfl | ⟨y', rfl⟩
  · exact Or.inl rfl
  · exact Or.inr ⟨_, lowerFrom_slash U before y'⟩

/-- Lowering a scheme, a validated text and what follows them: the scheme and
the text are ASCII, so they are lowered letter by letter. -/
theorem toLowerCase_scheme (U : CaseTable) (p d y : Str) (hp : IsAscii p)
    (hpl : asciiLower p = p) (hd : validateDomain d = true) :
    toLowerCase U (p ++ d ++ y) = p ++ (toLowerCase U d ++ lowerFrom U (p ++ d) y) := by
  have ha : IsAscii (p ++ d) := by
    intro c hc
    rcases List.mem_append.mp hc with hc | hc
    · exact hp c hc
    · exact validateDomain_isAscii hd c hc
  rw [toLowerCase_append_ascii U y ha, toLowerCase_validateDomain U hd]
  have : asciiLower (p ++ d) = p ++ asciiLower d := by
    conv_rhs => rw [← hpl]
    simp [asciiLower]
  rw [this, List.append_assoc]

theorem startsWith_http (z : Str) :
    startsWith ("http://".toList ++ z) "http://".toList = true := by
  have h : "http://".toList = ['h', 't', 't', 'p', ':', '/', '/'] := rfl
  rw [h]; simp [startsWith]

theorem startsWith_https (z : Str) :
    startsWith ("https://".toList ++ z) "https://".toList = true := by
  have h : "https://".toList = ['h', 't', 't', 'p', 's', ':', '/', '/'] := rfl
  rw [h]; simp [startsWith]

theorem stripScheme_http (z : Str) : stripScheme ("http://".toList ++ z) = z := by
  have h : "http://".toList = ['h', 't', 't', 'p', ':', '/', '/'] := rfl
  have h' : "https://".toList = ['h', 't', 't', 'p', 's', ':', '/', '/'] := rfl
  unfold stripScheme
  rw [h, h']
  simp [startsWith, List.isPrefixOf]

theorem stripScheme_https (z : Str) : stripScheme ("https://".toList ++ z) = z := by
  have h' : "https://".toList = ['h', 't', 't', 'p', 's', ':', '/', '/'] := rfl
  unfold stripScheme
  rw [h']
  simp [startsWith, List.isPrefixOf]

/-- The normalisation removes `http://` and what follows the first `/`
after it. -/
theorem normalize_http (d x : Str) (hd : validateDomain d = true)
    (hx : x = [] ∨ ∃ x', x = '/' :: x') :
    normalize U ("http://".toList ++ d ++ x) = toLowerCase U d := by
  obtain ⟨l, hl, hlet⟩ := validateDomain_getLast hd
  obtain ⟨c, rest, hs, -⟩ := validateDomain_head hd
  have hlast : ("http://".toList ++ d).getLast? = some l := by
    rw [List.getLast?_append, hl]; rfl
  obtain ⟨y, hy, hykind⟩ := @trim_append_path ("http://".toList ++ d)
    ("ttp://".toList ++ d) x 'h' l rfl (by decide) hlast
    (isDomainChar_not_whiteSpace (by simp [isDomainChar, isLetter_isLabelChar hlet])) hx
  have hlow := toLowerCase_scheme U "http://".toList d y (by unfold IsAscii; decide)
    (by decide) hd
  have hslash : '/' ∉ toLowerCase U d :=
    validateDomain_no_slash (validateDomain_toLowerCase (U := U) hd)
  unfold normalize
  simp only [hy, hlow]
  rw [startsWith_http, stripScheme_http]
  simp only [Bool.true_or, if_true]
  exact split_headD _ (lowerFrom_path U _ hykind) _ hslash

/-- The normalisation removes `https://` and what follows the first `/`
after it. -/
theorem normalize_https (d x : Str) (hd : validateDomain d = true)
    (hx : x = [] ∨ ∃ x', x = '/' :: x') :
    normalize U ("https://".toList ++ d ++ x) = toLowerCase U d := by
  obtain ⟨l, hl, hlet⟩ := validateDomain_getLast hd
  have hlast : ("https://".toList ++ d).getLast? = some l := by
    rw [List.getLast?_append, hl]; rfl
  obtain ⟨y, hy, hykind⟩ := @trim_append_path ("https://".toList ++ d)
    ("ttps://".toList ++ d) x 'h' l rfl (by decide) hlast
    (isDomainChar_not_whiteSpace (by simp [isDomainChar, isLetter_isLabelChar hlet])) hx
  have hlow := toLowerCase_scheme U "https://".toList d y (by unfold IsAscii; decide)
    (by decide) hd
  have hslash : '/' ∉ toLowerCase U d :=
    validateDomain_no_slash (validateDomain_toLowerCase (U := U) hd)
  unfold normalize
  simp only [hy, hlow]
  rw [startsWith_https, stripScheme_https]
  simp only [Bool.or_true, if_true]
  exact split_headD _ (lowerFrom_path U _ hykind) _ hslash

/-- Without a scheme the normalisation of a validated text only lowers it. -/
theorem normalize_plain (d : Str) (hd : validateDomain d = true) :
    normalize U d = toLowerCase U d := by
  obtain ⟨h1, h2⟩ := validateDomain_no_scheme (validateDomain_toLowerCase (U := U) hd)
  unfold normalize
  simp only [trim_validateDomain hd, h1, h2, Bool.or_self, Bool.false_eq_true, if_false]

theorem validate_of_normalize {s d : Str} (hs : s ≠ []) (hn : normalize U s = d)
    (hv : validateDomain d = true) : validate U s = some d := by
  unfold validate
  cases s with
  | nil => exact absurd rfl hs
  | cons c s =>
    simp only [List.isEmpty_cons, Bool.false_eq_true, if_false, hn, hv, if_true]

theorem validate_eq_some {s d : Str} (h : validate U s = some d) :
    normalize U s = d ∧ validateDomain d = true := by
  unfold validate at h
  split at h
  · exact absurd h (by simp)
  · simp only at h
    split at h
    · rename_i hv
      have := Option.some.inj h
      subst this
      exact ⟨rfl, hv⟩
    · exact absurd h (by simp)

/-! ## Validator and input normalisation: the claims -/

/-- C6, counterexample: `abc-.com` has a label that ends with a hyphen, the
normalisation leaves it as it is, and `validateDomain` accepts it. -/
theorem validateDomain_accepts_label_ending_in_hyphen :
    (split '.' "abc-.com".toList).any (fun w => w.getLast? == some '-') = true ∧
    normalize sampleTable "abc-.com".toList = "abc-.com".toList ∧
    validateDomain "abc-.com".toList = true := by
  decide

/-- C6, as amended: `validateDomain` rejects the empty text, a text that
starts with a dot, a text without a dot (a single label, no top-level label)
and a text that ends with a hyphen (its last label ends with a hyphen); the
handler then answers with the format error for every input whose normalised
form is such a text. -/
theorem validateDomain_rejects_malformed (t : Str)
    (h : t = [] ∨ t.head? = some '.' ∨ '.' ∉ t ∨ t.getLast? = some '-') :
    validateDomain t = false ∧ ∀ s, normalize U s = t → validate U s = none := by
  have hrej : validateDomain t = false := by
    cases hv : validateDomain t with
    | false => rfl
    | true =>
      exfalso
      obtain ⟨c, rest, hs, hc⟩ := validateDomain_head hv
      obtain ⟨l, hl, hlet⟩ := validateDomain_getLast hv
      rcases h with h | h | h | h
      · rw [h] at hs; exact absurd hs (by simp)
      · rw [hs] at h
        simp only [List.head?_cons, Option.some.injEq] at h
        rw [h] at hc
        revert hc; decide
      · exact h (validateDomain_mem_dot hv)
      · rw [hl] at h
        rw [Option.some.inj h] at hlet
        revert hlet; decide
  refine ⟨hrej, ?_⟩
  intro s hs
  unfold validate
  split
  · rfl
  · simp [hs, hrej]

theorem validateDomain_rejects_malformed_witness :
    "abc.com-".toList.getLast? = some '-' ∧
    validateDomain "abc.com-".toList = false ∧
    ∀ s, normalize sampleTable s = "abc.com-".toList → validate sampleTable s = none :=
  ⟨by decide,
    validateDomain_rejects_malformed "abc.com-".toList (Or.inr (Or.inr (Or.inr (by decide))))⟩

/-- C7, failing input: in `a.-b.com` the second label starts with a hyphen,
and `validateDomain` accepts the text; the lookahead `(?!-)` is tried at the
start of the input only. -/
theorem validateDomain_accepts_later_label_starting_with_hyphen :
    (split '.' "a.-b.com".toList).any (fun w => w.head? == some '-') = true ∧
    validateDomain "a.-b.com".toList = true ∧
    validateDomain "-a.b.com".toList = false := by
  decide

/-- C8, counterexample: `example.com` is accepted, but with a path and no
scheme, or with a query after a scheme, the normalised text still carries the
suffix and validation fails. -/
theorem validate_keeps_path_without_scheme :
    validateDomain "example.com".toList = true ∧
    validate sampleTable "example.com/path".toList = none ∧
    validate sampleTable "example.com?x=1".toList = none ∧
    validate sampleTable "http://example.com?x=1".toList = none := by
  decide

/-- C8, as amended: for every text `d` accepted by `validateDomain`, the
handler's normalisation followed by validation yields the lower-case form of
`d` from `d` itself, and from `http://` or `https://` followed by `d` and by
nothing or by a suffix that begins with `/`. -/
theorem validate_strips_scheme_and_path (d p x : Str) (hd : validateDomain d = true)
    (hpx : (p = [] ∧ x = []) ∨
      ((p = "http://".toList ∨ p = "https://".toList) ∧ (x = [] ∨ ∃ x', x = '/' :: x'))) :
    validate U (p ++ d ++ x) = some (toLowerCase U d) := by
  obtain ⟨c, rest, hs, -⟩ := validateDomain_head hd
  have hne : p ++ d ++ x ≠ [] := by
    rw [hs]; simp
  apply validate_of_normalize hne _ (validateDomain_toLowerCase hd)
  rcases hpx with ⟨rfl, rfl⟩ | ⟨rfl | rfl, hx⟩
  · simpa using normalize_plain d hd
  · exact normalize_http d x hd hx
  · exact normalize_https d x hd hx

theorem validate_strips_scheme_and_path_witness :
    validate sampleTable ("https://".toList ++ "Example.COM".toList ++ "/a/b?c=1 ".toList)
      = some (toLowerCase sampleTable "Example.COM".toList) :=
  validate_strips_scheme_and_path "Example.COM".toList "https://".toList "/a/b?c=1 ".toList
    (by decide) (Or.inr ⟨Or.inr rfl, Or.inr ⟨"a/b?c=1 ".toList, rfl⟩⟩)

/-- C9: with the lower-case mappings of `toLowerCase` given by any table
whose mappings hold no capital letter `A`-`Z` (Unicode's hold none), when the
handler's normalisation and validation of an input `s`, ASCII or not, succeed
with domain `d`, they succeed on `d` again and return `d` unchanged; `d` is
its own lower-case form and its own trimmed form. -/
theorem validate_idempotent (s d : Str) (hU : NoCapital U) (h : validate U s = some d) :
    validate U d = some d ∧ toLowerCase U d = d ∧ trim d = d := by
  obtain ⟨hn, hv⟩ := validate_eq_some h
  have hlow : ∀ c ∈ d, c.toLower = c := by
    intro c hc
    rw [← hn] at hc
    exact toLower_of_not_upper (normalize_noCapital hU s c hc)
  obtain ⟨c, rest, hs, -⟩ := validateDomain_head hv
  refine ⟨validate_of_normalize (by rw [hs]; simp) (normalize_eq_self hv hlow) hv,
    toLowerCase_eq_self (validateDomain_isAscii hv) hlow, trim_validateDomain hv⟩

theorem validate_idempotent_witness :
    validate sampleTable " HTTP://Example.\u212AOM/x ".toList = some "example.kom".toList ∧
    validate sampleTable "example.kom".toList = some "example.kom".toList ∧
    toLowerCase sampleTable "example.kom".toList = "example.kom".toList ∧
    trim "example.kom".toList = "example.kom".toList :=
  ⟨by decide, validate_idempotent " HTTP://Example.\u212AOM/x ".toList "example.kom".toList
    sampleTable_noCapital (by decide)⟩

/-! ## Rate limiter -/

section Limiter

variable {κ : Type} [DecidableEq κ]

theorem requests_set_self (rl : RateLimiter κ) (u : κ) (v : List Int) :
    (rl.set u v).requests u = some v := by
  simp [RateLimiter.set]

/-- The first call of a caller is admitted and starts its sequence. -/
theorem isAllowed_new (rl : RateLimiter κ) (u : κ) (now : Int) (h : rl.requests u = none) :
    rl.isAllowed u now = (true, rl.set u [now]) := by
  simp [RateLimiter.isAllowed, h]

/-- A later call is admitted when fewer than `maxRequests` timestamps are
younger than the window; the stored sequence becomes those followed by `now`. -/
theorem isAllowed_admitted (rl : RateLimiter κ) (u : κ) (now : Int) (pre : List Int)
    (h : rl.requests u = some pre)
    (hlt : (pre.filter (fun time => now - time < rl.timeWindow)).length < rl.maxRequests) :
    rl.isAllowed u now
      = (true, rl.set u (pre.filter (fun time => now - time < rl.timeWindow) ++ [now])) := by
  simp [RateLimiter.isAllowed, h, hlt]

/-- A later call is denied otherwise, and the limiter stays as it is. -/
theorem isAllowed_denied (rl : RateLimiter κ) (u : κ) (now : Int) (pre : List Int)
    (h : rl.requests u = some pre)
    (hge : rl.maxRequests ≤ (pre.filter (fun time => now - time < rl.timeWindow)).length) :
    rl.isAllowed u now = (false, rl) := by
  simp [RateLimiter.isAllowed, h, Nat.not_lt.mpr hge]

theorem calls_append (rl : RateLimiter κ) (u : κ) (l₁ l₂ : List Int) :
    rl.calls u (l₁ ++ l₂)
      = ((rl.calls u l₁).1 ++ ((rl.calls u l₁).2.calls u l₂).1,
          ((rl.calls u l₁).2.calls u l₂).2) := by
  induction l₁ generalizing rl with
  | nil => simp [RateLimiter.calls]
  | cons a l₁ ih => simp [RateLimiter.calls, ih]

/-- Calls that stay inside the window of every stored timestamp and of each
other are all admitted, as long as the sequence has room for them. -/
theorem calls_admitted (u : κ) :
    ∀ (l : List Int) (rl : RateLimiter κ) (pre : List Int),
      rl.requests u = some pre →
      (pre ++ l).Pairwise (fun x t => t - x < rl.timeWindow) →
      pre.length + l.length ≤ rl.maxRequests →
      (rl.calls u l).1 = List.replicate l.length true ∧
      (rl.calls u l).2.requests u = some (pre ++ l) ∧
      (rl.calls u l).2.maxRequests = rl.maxRequests ∧
      (rl.calls u l).2.timeWindow = rl.timeWindow
  | [], rl, pre, h, _, _ => by simp [RateLimiter.calls, h]
  | a :: l, rl, pre, h, hp, hlen => by
    have hall : ∀ x ∈ pre, a - x < rl.timeWindow := by
      intro x hx
      have := List.pairwise_append.mp hp
      exact this.2.2 x hx a (by simp)
    have hfilter : pre.filter (fun time => a - time < rl.timeWindow) = pre := by
      apply List.filter_eq_self.mpr
      intro x hx
      simpa using hall x hx
    have hlt : (pre.filter (fun time => a - time < rl.timeWindow)).length < rl.maxRequests := by
      rw [hfilter]
      simp only [List.length_cons] at hlen
      omega
    have hstep := isAllowed_admitted rl u a pre h hlt
    rw [hfilter] at hstep
    have ih := calls_admitted u l (rl.set u (pre ++ [a])) (pre ++ [a])
      (requests_set_self rl u _)
      (by
        show ((pre ++ [a]) ++ l).Pairwise (fun x t => t - x < rl.timeWindow)
        simpa using hp)
      (by
        show (pre ++ [a]).length + l.length ≤ rl.maxRequests
        simp only [List.length_append, List.length_cons, List.length_nil] at hlen ⊢
        omega)
    obtain ⟨i1, i2, i3, i4⟩ := ih
    simp only [RateLimiter.calls, hstep]
    refine ⟨by simp [i1, List.replicate_succ], by simpa using i2, i3, i4⟩

theorem le_getLast_of_sorted {l : List Int} (hl : l ≠ []) (hs : l.Sorted (· ≤ ·)) :
    ∀ x ∈ l, x ≤ l.getLast hl := by
  intro x hx
  have hsplit := List.dropLast_append_getLast hl
  rw [← hsplit] at hx hs
  rcases List.mem_append.mp hx with hx | hx
  · exact (List.pairwise_append.mp hs).2.2 x hx _ (by simp)
  · simp only [List.mem_singleton] at hx
    rw [hx]

/-- C3: a caller without history makes `n + 1` calls at non-decreasing times
`t₁ :: mid ++ [tden]`, where `n = mid.length + 1 = maxRequests`, all less than
`timeWindow` after the first; the first `n` answers are true and the last is
false; a further call at a time `T` at least `timeWindow` after the `n`-th
admitted call is answered true.  (`timeWindow > 0` follows from the
hypothesis on the first call itself.) -/
theorem sliding_window_sequence (rl : RateLimiter κ) (u : κ) (t₁ : Int) (mid : List Int)
    (tden T : Int)
    (hnew : rl.requests u = none)
    (hlen : mid.length + 1 = rl.maxRequests)
    (hsorted : (t₁ :: (mid ++ [tden])).Sorted (· ≤ ·))
    (hwin : ∀ t ∈ t₁ :: (mid ++ [tden]), t - t₁ < rl.timeWindow)
    (hT : rl.timeWindow ≤ T - (t₁ :: mid).getLast (List.cons_ne_nil _ _)) :
    (rl.calls u (t₁ :: (mid ++ [tden]))).1 = List.replicate rl.maxRequests true ++ [false] ∧
    ((rl.calls u (t₁ :: (mid ++ [tden]))).2.isAllowed u T).1 = true := by
  -- every pair of calls lies inside one window
  have hge : ∀ x ∈ t₁ :: (mid ++ [tden]), t₁ ≤ x := by
    intro x hx
    rcases List.mem_cons.mp hx with rfl | hx
    · exact le_refl _
    · exact (List.pairwise_cons.mp hsorted).1 x hx
  have hpair : (t₁ :: (mid ++ [tden])).Pairwise (fun x t => t - x < rl.timeWindow) := by
    refine List.Pairwise.imp_of_mem ?_ hsorted
    intro a b ha hb _
    have h1 := hge a ha
    have h2 := hwin b hb
    omega
  have hpair' : ([t₁] ++ mid ++ [tden]).Pairwise (fun x t => t - x < rl.timeWindow) := by
    simpa using hpair
  -- the first call, then the calls at `mid`
  have hfirst := isAllowed_new rl u t₁ hnew
  obtain ⟨a1, a2, a3, a4⟩ := calls_admitted u mid (rl.set u [t₁]) [t₁]
    (requests_set_self rl u _)
    (List.pairwise_append.mp hpair').1
    (by show [t₁].length + mid.length ≤ rl.maxRequests
        simp only [List.length_cons, List.length_nil]; omega)
  have a3' : ((rl.set u [t₁]).calls u mid).2.maxRequests = rl.maxRequests := a3
  have a4' : ((rl.set u [t₁]).calls u mid).2.timeWindow = rl.timeWindow := a4
  -- the call at `tden`
  have hkeep : ([t₁] ++ mid).filter
      (fun time => tden - time < ((rl.set u [t₁]).calls u mid).2.timeWindow) = [t₁] ++ mid := by
    apply List.filter_eq_self.mpr
    intro x hx
    rw [a4']
    simpa using (List.pairwise_append.mp hpair').2.2 x hx tden (by simp)
  have hden := isAllowed_denied ((rl.set u [t₁]).calls u mid).2 u tden ([t₁] ++ mid) a2
    (by rw [hkeep, a3']; simp only [List.length_append, List.length_cons, List.length_nil]
        omega)
  -- the call at `T`
  have hsorted' : (t₁ :: mid).Sorted (· ≤ ·) := by
    have : ((t₁ :: mid) ++ [tden]).Sorted (· ≤ ·) := by simpa using hsorted
    exact (List.pairwise_append.mp this).1
  have hdrop : ([t₁] ++ mid).filter
      (fun time => T - time < ((rl.set u [t₁]).calls u mid).2.timeWindow) = [] := by
    apply List.filter_eq_nil_iff.mpr
    intro x hx
    rw [a4']
    have := le_getLast_of_sorted (List.cons_ne_nil t₁ mid) hsorted' x (by simpa using hx)
    simp only [decide_eq_true_eq, not_lt]
    omega
  have hagain : (((rl.set u [t₁]).calls u mid).2.isAllowed u T).1 = true := by
    rw [isAllowed_admitted _ u T ([t₁] ++ mid) a2 (by rw [hdrop, a3']; simp only [List.length_nil]; omega)]
  have hcalls : rl.calls u (t₁ :: (mid ++ [tden]))
      = (true :: (List.replicate mid.length true ++ [false]),
          ((rl.set u [t₁]).calls u mid).2) := by
    simp only [RateLimiter.calls, hfirst, calls_append, hden, a1]
  rw [hcalls]
  refine ⟨?_, hagain⟩
  rw [← hlen, List.replicate_succ]
  rfl

theorem sliding_window_sequence_witness :
    ((RateLimiter.new Nat 2 1000).calls 7 [0, 10, 20]).1 = [true, true, false] ∧
    (((RateLimiter.new Nat 2 1000).calls 7 [0, 10, 20]).2.isAllowed 7 1010).1 = true :=
  sliding_window_sequence (RateLimiter.new Nat 2 1000) 7 0 [10] 20 1010 rfl rfl
    (by decide) (by decide) (by decide)

end Limiter

/-! ## Domain-scope filter -/

theorem compilePattern_ordinary {c : Char} (h1 : c ≠ '\\') (h2 : c ≠ '.') (rest : Str)
    (k : Regex) :
    compilePattern (c :: rest) k = .seq (.chr c) (compilePattern rest k) := by
  cases rest with
  | nil => simp [compilePattern, h2]
  | cons x rest =>
    rw [compilePattern]
    · simp [h2]
    · intro _ _ heq _
      exact h1 heq

theorem compilePattern_escaped (c : Char) (rest : Str) (k : Regex) :
    compilePattern ('\\' :: c :: rest) k = .seq (.chr c) (compilePattern rest k) := by
  rw [compilePattern]

/-- The pattern text built from a domain without backslash matches the
domain, character by character, up to the end of the input. -/
theorem mem_run_compilePattern :
    ∀ (d : Str), '\\' ∉ d → ∀ (n : Nat) (r t : Str),
      t ∈ (compilePattern (escapeDots d) .eol).run n r ↔ r = d ∧ t = []
  | [], _, n, r, t => by
    simp only [escapeDots, List.flatMap_nil, compilePattern]
    exact mem_run_eol
  | c :: d, h, n, r, t => by
    have hc : c ≠ '\\' := fun e => h (by simp [e])
    have hd : '\\' ∉ d := fun e => h (List.mem_cons_of_mem _ e)
    have ih := mem_run_compilePattern d hd n
    have hesc : escapeDots (c :: d) = (if c = '.' then ['\\', '.'] else [c]) ++ escapeDots d := by
      simp [escapeDots]
    rw [hesc]
    by_cases hdot : c = '.'
    · subst hdot
      simp only [if_true, List.cons_append, List.nil_append]
      rw [compilePattern_escaped, mem_run_seq]
      constructor
      · rintro ⟨m, hm, ht⟩
        rw [mem_run_chr] at hm
        obtain ⟨rfl, rfl⟩ := (ih m t).mp ht
        exact ⟨hm, rfl⟩
      · rintro ⟨rfl, rfl⟩
        exact ⟨d, mem_run_chr.mpr rfl, (ih d []).mpr ⟨rfl, rfl⟩⟩
    · simp only [hdot, if_false, List.cons_append, List.nil_append]
      rw [compilePattern_ordinary hc hdot, mem_run_seq]
      constructor
      · rintro ⟨m, hm, ht⟩
        rw [mem_run_chr] at hm
        obtain ⟨rfl, rfl⟩ := (ih m t).mp ht
        exact ⟨hm, rfl⟩
      · rintro ⟨rfl, rfl⟩
        exact ⟨d, mem_run_chr.mpr rfl, (ih d []).mpr ⟨rfl, rfl⟩⟩

theorem mem_run_alt {a b : Regex} {n : Nat} {r t : Str} :
    t ∈ (Regex.alt a b).run n r ↔ t ∈ a.run n r ∨ t ∈ b.run n r := by
  simp [Regex.run]

/-- The final filter of `getSubdomains` keeps the domain itself and the
hostnames that end with a dot followed by the domain. -/
theorem test_domainPattern (d h : Str) (hd : '\\' ∉ d) :
    (domainPattern d).test h = inScope d h := by
  rw [Bool.eq_iff_iff, test_iff]
  unfold domainPattern inScope endsWith
  rw [Bool.or_eq_true, beq_iff_eq, List.isSuffixOf_iff_suffix]
  constructor
  · rintro ⟨i, hi, t, ht⟩
    obtain ⟨m, hm, ht⟩ := mem_run_seq.mp ht
    obtain ⟨hmd, -⟩ := (mem_run_compilePattern d hd _ _ _).mp ht
    rcases mem_run_alt.mp hm with hm | hm
    · obtain ⟨hlen, hm⟩ := mem_run_bol.mp hm
      rw [drop_eq_self_of_length hlen] at hm
      left
      rw [← hm, hmd]
    · rw [mem_run_chr, hmd] at hm
      right
      exact ⟨h.take i, by rw [← hm, List.take_append_drop]⟩
  · rintro (rfl | ⟨pre, rfl⟩)
    · refine ⟨0, Nat.zero_le _, [], ?_⟩
      rw [List.drop_zero]
      exact mem_run_seq.mpr ⟨h, mem_run_alt.mpr (Or.inl (mem_run_bol.mpr ⟨rfl, rfl⟩)),
        (mem_run_compilePattern h hd _ _ _).mpr ⟨rfl, rfl⟩⟩
    · refine ⟨pre.length, by simp, [], ?_⟩
      rw [List.drop_left]
      exact mem_run_seq.mpr ⟨d, mem_run_alt.mpr (Or.inr (mem_run_chr.mpr rfl)),
        (mem_run_compilePattern d hd _ _ _).mpr ⟨rfl, rfl⟩⟩

theorem validateDomain_no_backslash {d : Str} (hv : validateDomain d = true) : '\\' ∉ d := by
  intro h
  have := validateDomain_chars hv '\\' h
  revert this; decide

theorem inScope_iff (d h : Str) : inScope d h = true ↔ h = d ∨ ('.' :: d) <:+ h := by
  unfold inScope endsWith
  rw [Bool.or_eq_true, beq_iff_eq, List.isSuffixOf_iff_suffix]

/-- The list `getSubdomains` returns, with the final filter spelled out. -/
theorem getSubdomains_eq (d : Str) (net : Net) (hv : validateDomain d = true) :
    getSubdomains U d net = (gather U d net).filter (inScope d) := by
  unfold getSubdomains
  apply List.filter_congr
  intro h _
  exact test_domainPattern d h (validateDomain_no_backslash hv)

/-! ## Normalisers and the shared set -/

theorem mem_add (s : StrSet) (x h : Str) : h ∈ s.add x ↔ h ∈ s ∨ h = x := by
  unfold StrSet.add
  split
  · rename_i hx
    constructor
    · exact Or.inl
    · rintro (h1 | rfl)
      · exact h1
      · exact hx
  · simp

theorem additiveRun_const (b : Bool) : AdditiveRun (fun s => ⟨s, b⟩) := by
  intro s
  exact ⟨rfl, fun h => by simp⟩

theorem additiveRun_add (x : Str) : AdditiveRun (fun s => ⟨s.add x, false⟩) := by
  intro s
  refine ⟨rfl, fun h => ?_⟩
  simp only [mem_add, List.not_mem_nil, false_or]

theorem forEach_additive {α : Type} {f : α → StrSet → Outcome} (hf : ∀ x, AdditiveRun (f x)) :
    ∀ xs : List α, AdditiveRun (forEach f xs)
  | [] => additiveRun_const false
  | x :: xs => by
    intro s
    have ih := forEach_additive hf xs
    obtain ⟨ht, hm⟩ := hf x s
    cases hb : (f x []).threw with
    | true =>
      have hb' : (f x s).threw = true := by rw [ht, hb]
      simp only [forEach, hb, hb', if_true]
      exact ⟨trivial, hm⟩
    | false =>
      have hb' : (f x s).threw = false := by rw [ht, hb]
      simp only [forEach, hb, hb', Bool.false_eq_true, if_false]
      obtain ⟨t1, m1⟩ := ih (f x s).set
      obtain ⟨t2, m2⟩ := ih (f x []).set
      refine ⟨by rw [t1, t2], fun h => ?_⟩
      rw [m1, m2, hm]
      exact or_assoc

theorem crtShLine_additive (d sub : Str) : AdditiveRun (crtShLine U d sub) := by
  unfold crtShLine
  by_cases h : endsWith (toLowerCase U (trim sub)) d = true
  · simp only [h, if_true]
    exact additiveRun_add _
  · simp only [h, Bool.false_eq_true, if_false]
    exact additiveRun_const false

theorem crtShEntry_additive (d : Str) (entry : JSON) : AdditiveRun (crtShEntry U d entry) := by
  cases entry with
  | obj props =>
    unfold crtShEntry
    simp only
    cases hlk : List.lookup "name_value".toList props with
    | none => simpa [truthy] using additiveRun_const false
    | some v =>
      by_cases ht : truthy (some v) = true
      · simp only [ht, if_true]
        cases v with
        | str line => exact forEach_additive (crtShLine_additive d) _
        | _ => exact additiveRun_const true
      · simp only [ht, Bool.false_eq_true, if_false]
        exact additiveRun_const false
  | null => exact additiveRun_const true
  | _ => exact additiveRun_const false

theorem crtShParser_additive (data : JSON) (d : Str) : AdditiveRun (crtShParser U data d) := by
  cases data with
  | arr entries => exact forEach_additive (crtShEntry_additive d) entries
  | _ => exact additiveRun_const true

theorem alienvaultRecord_additive (d : Str) (record : JSON) :
    AdditiveRun (alienvaultRecord U d record) := by
  cases record with
  | obj props =>
    unfold alienvaultRecord
    simp only
    cases hlk : List.lookup "hostname".toList props with
    | none => simpa [truthy] using additiveRun_const false
    | some v =>
      by_cases ht : truthy (some v) = true
      · simp only [ht, if_true]
        cases v with
        | str host =>
          by_cases he : endsWith host d = true
          · simp only [he, if_true]
            exact additiveRun_add _
          · simp only [he, Bool.false_eq_true, if_false]
            exact additiveRun_const false
        | _ => exact additiveRun_const true
      · simp only [ht, Bool.false_eq_true, if_false]
        exact additiveRun_const false
  | null => exact additiveRun_const true
  | _ => exact additiveRun_const false

theorem alienvaultParser_additive (data : JSON) (d : Str) :
    AdditiveRun (alienvaultParser U data d) := by
  cases data with
  | obj props =>
    unfold alienvaultParser
    simp only
    cases hlk : List.lookup "passive_dns".toList props with
    | none => simpa [truthy] using additiveRun_const false
    | some v =>
      by_cases ht : truthy (some v) = true
      · simp only [ht, if_true]
        cases v with
        | arr records => exact forEach_additive (alienvaultRecord_additive d) records
        | _ => exact additiveRun_const true
      · simp only [ht, Bool.false_eq_true, if_false]
        exact additiveRun_const false
  | null => exact additiveRun_const true
  | _ => exact additiveRun_const false

/-- What one source adds to the shared set does not depend on what the set
already holds. -/
theorem mem_runSource {parser : JSON → Str → StrSet → Outcome}
    (hp : ∀ data d, AdditiveRun (parser data d)) (r : FetchResult) (d : Str) (s : StrSet)
    (h : Str) :
    h ∈ runSource parser r d s ↔ h ∈ s ∨ h ∈ runSource parser r d [] := by
  cases r with
  | failed => simp [runSource]
  | response ok body =>
    cases ok with
    | false => simp [runSource]
    | true =>
      cases body with
      | none => simp [runSource]
      | some data => simpa [runSource] using (hp data d s).2 h

/-- The set after both callbacks holds what each source contributes,
whichever callback runs first. -/
theorem mem_gather (d : Str) (net : Net) (h : Str) :
    h ∈ gather U d net ↔
      h ∈ runSource (crtShParser U) net.crt d [] ∨ h ∈ runSource (alienvaultParser U) net.otx d [] := by
  unfold gather
  split
  · rw [mem_runSource alienvaultParser_additive]
  · rw [mem_runSource crtShParser_additive]
    exact or_comm

theorem runSource_ok (parser : JSON → Str → StrSet → Outcome) (data : JSON) (d : Str)
    (s : StrSet) : runSource parser (.response true (some data)) d s = (parser data d s).set :=
  rfl

theorem runSource_failure (parser : JSON → Str → StrSet → Outcome) {r : FetchResult}
    (hr : r.isFailure = true) (d : Str) (s : StrSet) : runSource parser r d s = s := by
  cases r with
  | failed => rfl
  | response ok body =>
    cases ok with
    | false => rfl
    | true => simp [FetchResult.isFailure] at hr

/-- An error raised at `bad`, after the items of `good` went through, ends
the loop: the items of `rest` are not visited. -/
theorem forEach_append_throw {α : Type} (f : α → StrSet → Outcome) (bad : α) (rest : List α) :
    ∀ (good : List α) (s : StrSet), (forEach f good s).threw = false →
      (f bad (forEach f good s).set).threw = true →
      forEach f (good ++ bad :: rest) s = f bad (forEach f good s).set
  | [], s, _, hbad => by
    simp only [forEach] at hbad
    simp [forEach, hbad]
  | x :: good, s, hgood, hbad => by
    cases hx : (f x s).threw with
    | true => simp [forEach, hx] at hgood
    | false =>
      simp only [forEach, hx, Bool.false_eq_true, if_false] at hgood hbad
      simp only [List.cons_append, forEach, hx, Bool.false_eq_true, if_false]
      exact forEach_append_throw f bad rest good _ hgood hbad

theorem forEach_crtShLine_threw (d : Str) :
    ∀ (lines : List Str) (s : StrSet), (forEach (crtShLine U d) lines s).threw = false
  | [], _ => rfl
  | l :: lines, s => by
    have h : (crtShLine U d l s).threw = false := by
      unfold crtShLine
      simp only
      split <;> rfl
    simp only [forEach, h, Bool.false_eq_true, if_false]
    exact forEach_crtShLine_threw d lines _

/-- An entry at which `crtShParser` raises an error has inserted nothing. -/
theorem crtShEntry_threw_set (d : Str) (entry : JSON) (s : StrSet)
    (h : (crtShEntry U d entry s).threw = true) : (crtShEntry U d entry s).set = s := by
  cases entry with
  | obj props =>
    unfold crtShEntry at h ⊢
    simp only at h ⊢
    cases hlk : List.lookup "name_value".toList props with
    | none => rw [hlk] at h; simp [truthy] at h
    | some v =>
      rw [hlk] at h
      by_cases ht : truthy (some v) = true
      · simp only [ht, if_true] at h ⊢
        cases v with
        | str line => simp [forEach_crtShLine_threw] at h
        | _ => rfl
      · simp only [ht, Bool.false_eq_true, if_false]
  | _ => rfl

/-- A record at which `alienvaultParser` raises an error has inserted
nothing. -/
theorem alienvaultRecord_threw_set (d : Str) (record : JSON) (s : StrSet)
    (h : (alienvaultRecord U d record s).threw = true) : (alienvaultRecord U d record s).set = s := by
  cases record with
  | obj props =>
    unfold alienvaultRecord at h ⊢
    simp only at h ⊢
    cases hlk : List.lookup "hostname".toList props with
    | none => rw [hlk] at h; simp [truthy] at h
    | some v =>
      rw [hlk] at h
      by_cases ht : truthy (some v) = true
      · simp only [ht, if_true] at h ⊢
        cases v with
        | str host =>
          by_cases he : endsWith host d = true
          · simp [he] at h
          · simp [he] at h
        | _ => rfl
      · simp only [ht, Bool.false_eq_true, if_false]
  | _ => rfl

/-- The hostnames `getSubdomains` returns: those in scope that one of the two
sources contributes. -/
theorem mem_getSubdomains (d : Str) (net : Net) (h : Str) (hv : validateDomain d = true) :
    h ∈ getSubdomains U d net ↔
      inScope d h = true ∧
        (h ∈ runSource (crtShParser U) net.crt d [] ∨
          h ∈ runSource (alienvaultParser U) net.otx d []) := by
  rw [getSubdomains_eq d net hv, List.mem_filter, mem_gather]
  exact and_comm

theorem forEach_congr {α : Type} {f g : α → StrSet → Outcome} :
    ∀ (xs : List α) (s : StrSet), (∀ x ∈ xs, ∀ t, f x t = g x t) →
      forEach f xs s = forEach g xs s
  | [], _, _ => rfl
  | x :: xs, s, h => by
    have hx := h x (by simp) s
    have ih := fun t => forEach_congr xs t (fun y hy => h y (List.mem_cons_of_mem _ hy))
    simp only [forEach, hx, ih]

/-- On a certificate list with one entry whose lines are ASCII, and with the
other source down, the result does not depend on the table. -/
theorem getSubdomains_crt_ascii (U V : CaseTable) (d nv : Str)
    (h : ∀ l ∈ split '\n' nv, IsAscii (trim l)) :
    getSubdomains U d ⟨.response true (some (.arr [.obj [("name_value".toList, .str nv)]])),
        .failed, true⟩
      = getSubdomains V d ⟨.response true (some (.arr [.obj [("name_value".toList,
        .str nv)]])), .failed, true⟩ := by
  have hline : ∀ l ∈ split '\n' nv, ∀ t, crtShLine U d l t = crtShLine V d l t := by
    intro l hl t
    unfold crtShLine
    rw [toLowerCase_ascii U (h l hl), toLowerCase_ascii V (h l hl)]
  have hentry : ∀ t, crtShEntry U d (.obj [("name_value".toList, .str nv)]) t
      = crtShEntry V d (.obj [("name_value".toList, .str nv)]) t := by
    intro t
    cases hnv : nv.isEmpty with
    | true => simp [crtShEntry, truthy, hnv]
    | false => simp [crtShEntry, truthy, hnv, forEach_congr _ t hline]
  simp only [getSubdomains, gather, if_true, runSource, crtShParser, forEach, hentry,
    Bool.not_true, Bool.false_eq_true, if_false]

/-! ## Aggregator: the claims -/

/-- C1: for a validated domain `d`, `getSubdomains` returns `h` exactly when
`h` is in the set gathered from the sources and `h` is `d` or ends with a dot
followed by `d`.  For `example.com` and a certificate list naming
`api.example.com`, `example.com`, `evilexample.com` and
`example.com.evil.com`, the result is `api.example.com` and `example.com`;
so is the result of the filter on these four candidates. -/
theorem getSubdomains_scope_filter (d : Str) (net : Net) (h : Str)
    (hv : validateDomain d = true) :
    (h ∈ getSubdomains U d net ↔ h ∈ gather U d net ∧ (h = d ∨ ('.' :: d) <:+ h)) ∧
    (d = "example.com".toList →
      getSubdomains U d ⟨.response true (some (.arr [.obj [("name_value".toList,
          .str "api.example.com\nexample.com\nevilexample.com\nexample.com.evil.com".toList)]])),
          .failed, true⟩
        = ["api.example.com".toList, "example.com".toList] ∧
      ["api.example.com".toList, "example.com".toList, "evilexample.com".toList,
          "example.com.evil.com".toList].filter (fun sub => (domainPattern d).test sub)
        = ["api.example.com".toList, "example.com".toList]) := by
  constructor
  · rw [getSubdomains_eq d net hv, List.mem_filter, inScope_iff]
  · rintro rfl
    refine ⟨?_, by decide⟩
    rw [getSubdomains_crt_ascii U sampleTable _ _ (by decide)]
    decide

theorem getSubdomains_scope_filter_witness :
    ("a.b.example.com".toList ∈ getSubdomains sampleTable "example.com".toList
        ⟨.failed, .response true (some (.obj [("passive_dns".toList,
          .arr [.obj [("hostname".toList, .str "a.b.example.com".toList)]])])), false⟩ ↔
      "a.b.example.com".toList ∈ gather sampleTable "example.com".toList
        ⟨.failed, .response true (some (.obj [("passive_dns".toList,
          .arr [.obj [("hostname".toList, .str "a.b.example.com".toList)]])])), false⟩ ∧
      ("a.b.example.com".toList = "example.com".toList ∨
        ('.' :: "example.com".toList) <:+ "a.b.example.com".toList)) :=
  (getSubdomains_scope_filter "example.com".toList _ "a.b.example.com".toList (by decide)).1

/-- C2: when the request of one source fails (an error, or a status that is
not a success) and the other source delivers a payload, `getSubdomains`
returns the in-scope hostnames that the other source's normaliser yields from
its payload, whichever source fails and whichever callback runs first; the
result is not empty when one of these hostnames is in scope. -/
theorem getSubdomains_fault_isolation (d : Str) (failing : FetchResult) (data : JSON)
    (crtFirst : Bool) (hv : validateDomain d = true) (hf : failing.isFailure = true) :
    (getSubdomains U d ⟨failing, .response true (some data), crtFirst⟩
        = (alienvaultParser U data d []).set.filter (inScope d) ∧
      ((∃ h ∈ (alienvaultParser U data d []).set, inScope d h = true) →
        getSubdomains U d ⟨failing, .response true (some data), crtFirst⟩ ≠ [])) ∧
    (getSubdomains U d ⟨.response true (some data), failing, crtFirst⟩
        = (crtShParser U data d []).set.filter (inScope d) ∧
      ((∃ h ∈ (crtShParser U data d []).set, inScope d h = true) →
        getSubdomains U d ⟨.response true (some data), failing, crtFirst⟩ ≠ [])) := by
  have e1 : getSubdomains U d ⟨failing, .response true (some data), crtFirst⟩
      = (alienvaultParser U data d []).set.filter (inScope d) := by
    rw [getSubdomains_eq d _ hv]
    cases crtFirst <;>
      simp only [gather, Bool.false_eq_true, if_false, if_true, runSource_failure _ hf,
        runSource_ok]
  have e2 : getSubdomains U d ⟨.response true (some data), failing, crtFirst⟩
      = (crtShParser U data d []).set.filter (inScope d) := by
    rw [getSubdomains_eq d _ hv]
    cases crtFirst <;>
      simp only [gather, Bool.false_eq_true, if_false, if_true, runSource_failure _ hf,
        runSource_ok]
  refine ⟨⟨e1, ?_⟩, ⟨e2, ?_⟩⟩
  · rintro ⟨h, hm, hs⟩
    rw [e1]
    exact List.ne_nil_of_mem (List.mem_filter.mpr ⟨hm, hs⟩)
  · rintro ⟨h, hm, hs⟩
    rw [e2]
    exact List.ne_nil_of_mem (List.mem_filter.mpr ⟨hm, hs⟩)

theorem getSubdomains_fault_isolation_witness :
    getSubdomains sampleTable exampleCom
        ⟨.response false none, .response true (some otxSample), true⟩
      ≠ [] :=
  (getSubdomains_fault_isolation exampleCom (.response false none) otxSample true
    (by decide) rfl).1.2 ⟨"b.example.com".toList, by decide, by decide⟩

/-- C10, counterexample: the normaliser raises an error at the second item of
each malformed payload, and the hostname of the first item is returned all
the same (that of the third item is not). -/
theorem malformed_payload_contributes :
    ((crtShParser sampleTable crtMalformed exampleCom []).threw = true ∧
      getSubdomains sampleTable exampleCom ⟨.response true (some crtMalformed), .failed, true⟩
        = ["a.example.com".toList]) ∧
    ((alienvaultParser sampleTable otxMalformed exampleCom []).threw = true ∧
      getSubdomains sampleTable exampleCom ⟨.failed, .response true (some otxMalformed), true⟩
        = ["b.example.com".toList]) := by
  decide

/-- C10, as amended: when a normaliser raises an error at an item of its
list, after the items before it went through, the error is caught and the
hostnames inserted up to then stay in the shared set: `getSubdomains` returns
exactly the hostnames in scope among those that the items before the
offending one yield and those that the other source contributes; the items
after the offending one contribute nothing. -/
theorem getSubdomains_partial_contribution (d : Str) (good : List JSON) (bad : JSON)
    (rest : List JSON) (props : List (Str × JSON)) (other : FetchResult) (crtFirst : Bool)
    (h : Str) (hv : validateDomain d = true) :
    ((forEach (crtShEntry U d) good []).threw = false → (crtShEntry U d bad []).threw = true →
      (h ∈ getSubdomains U d
          ⟨.response true (some (.arr (good ++ bad :: rest))), other, crtFirst⟩ ↔
        inScope d h = true ∧
          (h ∈ (forEach (crtShEntry U d) good []).set ∨
            h ∈ runSource (alienvaultParser U) other d []))) ∧
    (props.lookup "passive_dns".toList = some (.arr (good ++ bad :: rest)) →
      (forEach (alienvaultRecord U d) good []).threw = false →
      (alienvaultRecord U d bad []).threw = true →
      (h ∈ getSubdomains U d ⟨other, .response true (some (.obj props)), crtFirst⟩ ↔
        inScope d h = true ∧
          (h ∈ (forEach (alienvaultRecord U d) good []).set ∨
            h ∈ runSource (crtShParser U) other d []))) := by
  constructor
  · intro hgood hbad
    have hbad' : (crtShEntry U d bad (forEach (crtShEntry U d) good []).set).threw = true := by
      rw [(crtShEntry_additive d bad _).1, hbad]
    have hrun : runSource (crtShParser U) (.response true (some (.arr (good ++ bad :: rest)))) d []
        = (forEach (crtShEntry U d) good []).set := by
      rw [runSource_ok]
      show (forEach (crtShEntry U d) (good ++ bad :: rest) []).set = _
      rw [forEach_append_throw _ bad rest good [] hgood hbad']
      exact crtShEntry_threw_set d bad _ hbad'
    rw [mem_getSubdomains d _ h hv]
    simp only [hrun]
  · intro hprops hgood hbad
    have hbad' :
        (alienvaultRecord U d bad (forEach (alienvaultRecord U d) good []).set).threw = true := by
      rw [(alienvaultRecord_additive d bad _).1, hbad]
    have hparse : alienvaultParser U (.obj props) d []
        = forEach (alienvaultRecord U d) (good ++ bad :: rest) [] := by
      unfold alienvaultParser
      simp only [hprops, truthy, if_true]
    have hrun : runSource (alienvaultParser U) (.response true (some (.obj props))) d []
        = (forEach (alienvaultRecord U d) good []).set := by
      rw [runSource_ok, hparse, forEach_append_throw _ bad rest good [] hgood hbad']
      exact alienvaultRecord_threw_set d bad _ hbad'
    rw [mem_getSubdomains d _ h hv]
    simp only [hrun]
    constructor
    · rintro ⟨h1, h2 | h2⟩
      · exact ⟨h1, Or.inr h2⟩
      · exact ⟨h1, Or.inl h2⟩
    · rintro ⟨h1, h2 | h2⟩
      · exact ⟨h1, Or.inr h2⟩
      · exact ⟨h1, Or.inl h2⟩

theorem getSubdomains_partial_contribution_witness :
    ("a.example.com".toList ∈ getSubdomains sampleTable exampleCom
        ⟨.response true (some crtMalformed), .response true (some otxSample), false⟩ ↔
      inScope exampleCom "a.example.com".toList = true ∧
        ("a.example.com".toList ∈ (forEach (crtShEntry sampleTable exampleCom)
            [.obj [("name_value".toList, .str "a.example.com".toList)]] []).set ∨
          "a.example.com".toList ∈
            runSource (alienvaultParser sampleTable) (.response true (some otxSample))
              exampleCom [])) ∧
    ("b.example.com".toList ∈ getSubdomains sampleTable exampleCom
        ⟨.response true (some crtSample), .response true (some otxMalformed), false⟩ ↔
      inScope exampleCom "b.example.com".toList = true ∧
        ("b.example.com".toList ∈ (forEach (alienvaultRecord sampleTable exampleCom)
            [.obj [("hostname".toList, .str "b.example.com".toList)]] []).set ∨
          "b.example.com".toList ∈
            runSource (crtShParser sampleTable) (.response true (some crtSample)) exampleCom [])) :=
  ⟨(getSubdomains_partial_contribution exampleCom
      [.obj [("name_value".toList, .str "a.example.com".toList)]] .null
      [.obj [("name_value".toList, .str "c.example.com".toList)]] []
      (.response true (some otxSample)) false "a.example.com".toList (by decide)).1
      (by decide) (by decide),
    (getSubdomains_partial_contribution exampleCom
      [.obj [("hostname".toList, .str "b.example.com".toList)]]
      (.obj [("hostname".toList, .num 5)])
      [.obj [("hostname".toList, .str "d.example.com".toList)]]
      [("passive_dns".toList, .arr [.obj [("hostname".toList, .str "b.example.com".toList)],
        .obj [("hostname".toList, .num 5)],
        .obj [("hostname".toList, .str "d.example.com".toList)]])]
      (.response true (some crtSample)) false "b.example.com".toList (by decide)).2
      rfl (by decide) (by decide)⟩

/-! ## Rate limiter and cache: the claims -/

/-- C4, failing input: with `maxRequests = 0` a caller without history is
admitted by its first call and `now` is stored, although the number of its
timestamps inside the window, none, is not less than `maxRequests`; the next
call of the same caller is denied. -/
theorem isAllowed_first_call_ignores_maxRequests (timeWindow now : Int) :
    ((RateLimiter.new Nat 0 timeWindow).isAllowed 7 now).1 = true ∧
    ((RateLimiter.new Nat 0 timeWindow).isAllowed 7 now).2.requests 7 = some [now] ∧
    ¬ ((([] : List Int).filter (fun time => now - time < timeWindow)).length
        < (RateLimiter.new Nat 0 timeWindow).maxRequests) ∧
    ((((RateLimiter.new Nat 0 timeWindow).isAllowed 7 now).2).isAllowed 7 now).1 = false := by
  refine ⟨rfl, rfl, by simp [RateLimiter.new], ?_⟩
  simp [RateLimiter.isAllowed, RateLimiter.new, RateLimiter.set]

/-- C5, failing input: the cache file is removed before it is read, so the
lookup never yields a cached list.  After a first query has stored
`a.example.com` for `example.com`, a second query one second later, with both
sources down, answers that nothing was found instead of the stored list, and
overwrites the entry with the empty list. -/
theorem cache_entry_removed_before_read :
    (∀ (files : Files) (cacheFile : Str) (now : Int),
      (cacheLookup files cacheFile now).1 = none) ∧
    (handler sampleTable id freshWorld 7 exampleCom ⟨0, 0, 0, 0⟩ netCrtOnly).1
      = .result exampleCom ["a.example.com".toList] false ∧
    ((handler sampleTable id freshWorld 7 exampleCom ⟨0, 0, 0, 0⟩ netCrtOnly).2.files
        exampleCom).map (fun e => (e.subdomains, e.timestamp)) = some (["a.example.com".toList], 0) ∧
    (handler sampleTable id
        (handler sampleTable id freshWorld 7 exampleCom ⟨0, 0, 0, 0⟩ netCrtOnly).2 7 exampleCom
        ⟨1000, 1000, 1000, 1000⟩ netDown).1 = .notFound exampleCom ∧
    ((handler sampleTable id
        (handler sampleTable id freshWorld 7 exampleCom ⟨0, 0, 0, 0⟩ netCrtOnly).2 7 exampleCom
        ⟨1000, 1000, 1000, 1000⟩ netDown).2.files exampleCom).map
        (fun e => (e.subdomains, e.timestamp)) = some ([], 1000) := by
  refine ⟨?_, by decide, by decide, by decide, by decide⟩
  intro files cacheFile now
  unfold cacheLookup
  cases files cacheFile with
  | none => rfl
  | some e => simp [Files.unlink]

/-! ## Sorting -/

theorem sortStrings_sorted (l : List Str) : (sortStrings l).Sorted (· ≤ ·) :=
  List.sorted_insertionSort _ l

theorem sortStrings_perm (l : List Str) : (sortStrings l).Perm l :=
  List.perm_insertionSort _ l

theorem sortStrings_eq_of_perm {l₁ l₂ : List Str} (h : l₁.Perm l₂) :
    sortStrings l₁ = sortStrings l₂ :=
  List.eq_of_perm_of_sorted (r := (· ≤ ·))
    (((sortStrings_perm l₁).trans h).trans (sortStrings_perm l₂).symm)
    (sortStrings_sorted l₁) (sortStrings_sorted l₂)

/-! ## Rate limiter: histories of calls -/

section History

variable {κ : Type} [DecidableEq κ]

theorem isAllowed_config (rl : RateLimiter κ) (u : κ) (now : Int) :
    (rl.isAllowed u now).2.maxRequests = rl.maxRequests ∧
    (rl.isAllowed u now).2.timeWindow = rl.timeWindow := by
  unfold RateLimiter.isAllowed
  split
  · exact ⟨rfl, rfl⟩
  · simp only
    split <;> exact ⟨rfl, rfl⟩

theorem isAllowed_requests_other (rl : RateLimiter κ) {u v : κ} (now : Int) (h : v ≠ u) :
    (rl.isAllowed u now).2.requests v = rl.requests v := by
  unfold RateLimiter.isAllowed
  split
  · simp [RateLimiter.set, h]
  · simp only
    split
    · simp [RateLimiter.set, h]
    · rfl

/-- A denial leaves the limiter as it was, and happens only when the caller
has a sequence with at least `maxRequests` timestamps inside the window. -/
theorem isAllowed_false (rl : RateLimiter κ) (u : κ) (now : Int)
    (h : (rl.isAllowed u now).1 = false) :
    (rl.isAllowed u now).2 = rl ∧
    ∃ l, rl.requests u = some l ∧
      rl.maxRequests ≤ (l.filter (fun time => now - time < rl.timeWindow)).length := by
  cases hr : rl.requests u with
  | none => rw [isAllowed_new rl u now hr] at h; exact absurd h (by simp)
  | some l =>
    by_cases hlt : (l.filter (fun time => now - time < rl.timeWindow)).length < rl.maxRequests
    · rw [isAllowed_admitted rl u now l hr hlt] at h; exact absurd h (by simp)
    · rw [isAllowed_denied rl u now l hr (Nat.not_lt.mp hlt)]
      exact ⟨rfl, l, rfl, Nat.not_lt.mp hlt⟩

theorem filter_eq_self_of_length {l : List Int} {p : Int → Bool} {m : Nat}
    (h1 : m ≤ (l.filter p).length) (h2 : l.length ≤ m) :
    l.filter p = l ∧ l.length = m := by
  have h3 := List.length_filter_le p l
  have h4 : (l.filter p).length = l.length := by omega
  exact ⟨List.filter_eq_self.mpr (List.filter_length_eq_length.mp h4), by omega⟩

omit [DecidableEq κ] in
theorem new_lengthBounded (maxRequests : Nat) (timeWindow : Int) :
    LengthBounded (RateLimiter.new κ maxRequests timeWindow) := by
  intro u l h
  simp [RateLimiter.new] at h

omit [DecidableEq κ] in
theorem new_timeBounded (maxRequests : Nat) (timeWindow T : Int) :
    TimeBounded (RateLimiter.new κ maxRequests timeWindow) T := by
  intro u l h
  simp [RateLimiter.new] at h

/-- What the caller's sequence is after its call: `now` alone, the timestamps
inside the window followed by `now`, or the sequence as it was. -/
theorem isAllowed_requests_self (rl : RateLimiter κ) (u : κ) (now : Int) :
    (rl.requests u = none ∧ (rl.isAllowed u now).2.requests u = some [now]) ∨
    (∃ l, rl.requests u = some l ∧
      (l.filter (fun time => now - time < rl.timeWindow)).length < rl.maxRequests ∧
      (rl.isAllowed u now).2.requests u
        = some (l.filter (fun time => now - time < rl.timeWindow) ++ [now])) ∨
    (∃ l, rl.requests u = some l ∧
      rl.maxRequests ≤ (l.filter (fun time => now - time < rl.timeWindow)).length ∧
      (rl.isAllowed u now).2.requests u = some l) := by
  cases hr : rl.requests u with
  | none =>
    left
    rw [isAllowed_new rl u now hr]
    exact ⟨rfl, requests_set_self rl u _⟩
  | some l =>
    right
    by_cases hlt : (l.filter (fun time => now - time < rl.timeWindow)).length < rl.maxRequests
    · left
      rw [isAllowed_admitted rl u now l hr hlt]
      exact ⟨l, rfl, hlt, requests_set_self rl u _⟩
    · right
      rw [isAllowed_denied rl u now l hr (Nat.not_lt.mp hlt)]
      exact ⟨l, rfl, Nat.not_lt.mp hlt, hr⟩

theorem isAllowed_lengthBounded (rl : RateLimiter κ) (u : κ) (now : Int)
    (h1 : 1 ≤ rl.maxRequests) (hI : LengthBounded rl) :
    LengthBounded (rl.isAllowed u now).2 := by
  intro v l hv
  rw [(isAllowed_config rl u now).1]
  by_cases hvu : v = u
  · subst hvu
    rcases isAllowed_requests_self rl v now with ⟨-, h⟩ | ⟨l', -, hlt, h⟩ | ⟨l', hl', -, h⟩
    · rw [h] at hv
      rw [← Option.some.inj hv]
      simpa using h1
    · rw [h] at hv
      rw [← Option.some.inj hv]
      simp only [List.length_append, List.length_cons, List.length_nil]
      omega
    · rw [h] at hv
      rw [← Option.some.inj hv]
      exact hI v l' hl'
  · rw [isAllowed_requests_other rl now hvu] at hv
    exact hI v l hv

theorem run_config (cs : List (κ × Int)) :
    ∀ rl : RateLimiter κ, (rl.run cs).maxRequests = rl.maxRequests ∧
      (rl.run cs).timeWindow = rl.timeWindow := by
  induction cs with
  | nil => intro rl; exact ⟨rfl, rfl⟩
  | cons c cs ih =>
    intro rl
    obtain ⟨h1, h2⟩ := ih (rl.isAllowed c.1 c.2).2
    obtain ⟨h3, h4⟩ := isAllowed_config rl c.1 c.2
    exact ⟨h1.trans h3, h2.trans h4⟩

theorem run_lengthBounded (cs : List (κ × Int)) :
    ∀ rl : RateLimiter κ, 1 ≤ rl.maxRequests → LengthBounded rl → LengthBounded (rl.run cs) := by
  induction cs with
  | nil => intro rl _ h; exact h
  | cons c cs ih =>
    intro rl h1 hI
    exact ih _ (by rw [(isAllowed_config rl c.1 c.2).1]; exact h1)
      (isAllowed_lengthBounded rl c.1 c.2 h1 hI)

theorem run_append (cs₁ cs₂ : List (κ × Int)) :
    ∀ rl : RateLimiter κ, rl.run (cs₁ ++ cs₂) = (rl.run cs₁).run cs₂ := by
  induction cs₁ with
  | nil => intro rl; rfl
  | cons c cs ih => intro rl; exact ih _

theorem run_requests_other (u : κ) (cs : List (κ × Int)) (h : ∀ c ∈ cs, c.1 ≠ u) :
    ∀ rl : RateLimiter κ, (rl.run cs).requests u = rl.requests u := by
  induction cs with
  | nil => intro rl; rfl
  | cons c cs ih =>
    intro rl
    have hc : u ≠ c.1 := fun e => h c (by simp) e.symm
    exact (ih (fun c' hc' => h c' (List.mem_cons_of_mem _ hc')) _).trans
      (isAllowed_requests_other rl c.2 hc)

omit [DecidableEq κ] in
theorem timeBounded_mono {rl : RateLimiter κ} {T T' : Int} (h : TimeBounded rl T)
    (hT : T ≤ T') : TimeBounded rl T' :=
  fun u l hl t ht => le_trans (h u l hl t ht) hT

theorem isAllowed_timeBounded (rl : RateLimiter κ) (u : κ) (now T : Int)
    (hI : TimeBounded rl T) (hT : T ≤ now) : TimeBounded (rl.isAllowed u now).2 now := by
  intro v l hv t ht
  by_cases hvu : v = u
  · subst hvu
    rcases isAllowed_requests_self rl v now with ⟨-, h⟩ | ⟨l', hl', -, h⟩ | ⟨l', hl', -, h⟩
    · rw [h] at hv
      rw [← Option.some.inj hv] at ht
      simp only [List.mem_singleton] at ht
      rw [ht]
    · rw [h] at hv
      rw [← Option.some.inj hv] at ht
      rcases List.mem_append.mp ht with ht | ht
      · exact le_trans (hI v l' hl' t (List.mem_filter.mp ht).1) hT
      · simp only [List.mem_singleton] at ht
        rw [ht]
    · rw [h] at hv
      rw [← Option.some.inj hv] at ht
      exact le_trans (hI v l' hl' t ht) hT
  · rw [isAllowed_requests_other rl now hvu] at hv
    exact le_trans (hI v l hv t ht) hT

/-- After calls at non-decreasing times no stored timestamp is later than a
time that no call exceeds. -/
theorem run_timeBounded (cs : List (κ × Int)) :
    ∀ (rl : RateLimiter κ) (T T' : Int), TimeBounded rl T →
      (T :: cs.map Prod.snd).Sorted (· ≤ ·) → T ≤ T' → (∀ c ∈ cs, c.2 ≤ T') →
      TimeBounded (rl.run cs) T' := by
  induction cs with
  | nil =>
    intro rl T T' hI _ hT _
    exact timeBounded_mono hI hT
  | cons c cs ih =>
    intro rl T T' hI hs _ hall
    have hs' : (T :: c.2 :: cs.map Prod.snd).Sorted (· ≤ ·) := by simpa using hs
    have hTc : T ≤ c.2 := (List.pairwise_cons.mp hs').1 c.2 (by simp)
    exact ih _ c.2 T' (isAllowed_timeBounded rl c.1 c.2 T hI hTc)
      (List.pairwise_cons.mp hs').2 (hall c (by simp))
      (fun c' hc' => hall c' (List.mem_cons_of_mem _ hc'))

theorem foldl_min_mem (ts : List Int) : ∀ t : Int, ts.foldl min t ∈ t :: ts := by
  induction ts with
  | nil => intro t; simp
  | cons a ts ih =>
    intro t
    have := ih (min t a)
    simp only [List.foldl_cons]
    rcases List.mem_cons.mp this with h | h
    · rw [h]
      rcases min_choice t a with h' | h' <;> simp [h']
    · simp [h]

theorem foldl_min_le (ts : List Int) : ∀ t : Int, ∀ x ∈ t :: ts, ts.foldl min t ≤ x := by
  induction ts with
  | nil => intro t x hx; simp at hx; simp [hx]
  | cons a ts ih =>
    intro t x hx
    simp only [List.foldl_cons]
    have hle : ts.foldl min (min t a) ≤ min t a := ih (min t a) _ (by simp)
    rcases List.mem_cons.mp hx with rfl | hx
    · exact le_trans hle (min_le_left _ _)
    · rcases List.mem_cons.mp hx with rfl | hx
      · exact le_trans hle (min_le_right _ _)
      · exact ih (min t a) x (List.mem_cons_of_mem _ hx)

omit [DecidableEq κ] in
theorem getTimeUntilNextAllowed_nonneg (rl : RateLimiter κ) (u : κ) (now : Int) :
    0 ≤ rl.getTimeUntilNextAllowed u now := by
  unfold RateLimiter.getTimeUntilNextAllowed
  split
  · exact le_refl _
  · exact le_refl _
  · exact le_max_left _ _

/-! ## Rate limiter: the claims -/

/-- C13: with `maxRequests >= 1`, in every state reached from a new limiter by
`isAllowed` calls, when `isAllowed` denies a caller at time `now` the caller
has timestamps left after those with `now - t >= timeWindow` are dropped,
and `getTimeUntilNextAllowed` at the same `now` is `timeWindow - (now - m)`
for the least `m` of them; in every state and at every time the value is at
least 0. -/
theorem retry_after_value (maxRequests : Nat) (timeWindow : Int) (cs : List (κ × Int))
    (u : κ) (now : Int) (h1 : 1 ≤ maxRequests)
    (hden : (((RateLimiter.new κ maxRequests timeWindow).run cs).isAllowed u now).1 = false) :
    (∃ t ts,
      ((((RateLimiter.new κ maxRequests timeWindow).run cs).requests u).getD []).filter
          (fun time => now - time < timeWindow) = t :: ts ∧
      ((((RateLimiter.new κ maxRequests timeWindow).run cs).isAllowed u now).2
          ).getTimeUntilNextAllowed u now = timeWindow - (now - ts.foldl min t)) ∧
    (∀ (rl : RateLimiter κ) (v : κ) (later : Int), 0 ≤ rl.getTimeUntilNextAllowed v later) := by
  refine ⟨?_, fun rl v later => getTimeUntilNextAllowed_nonneg rl v later⟩
  obtain ⟨hmax, hwin⟩ := run_config cs (RateLimiter.new κ maxRequests timeWindow)
  have hmax' : ((RateLimiter.new κ maxRequests timeWindow).run cs).maxRequests = maxRequests :=
    hmax
  have hwin' : ((RateLimiter.new κ maxRequests timeWindow).run cs).timeWindow = timeWindow :=
    hwin
  have hI := run_lengthBounded cs (RateLimiter.new κ maxRequests timeWindow) h1
    (new_lengthBounded maxRequests timeWindow)
  obtain ⟨hsame, l, hl, hge⟩ := isAllowed_false _ u now hden
  rw [hsame, hl]
  rw [hmax', hwin'] at hge
  have hlen := hI u l hl
  rw [hmax'] at hlen
  obtain ⟨hfil, hlen'⟩ := filter_eq_self_of_length hge hlen
  cases l with
  | nil => simp at hlen'; omega
  | cons t ts =>
    refine ⟨t, ts, by simpa using hfil, ?_⟩
    have hrecent : now - ts.foldl min t < timeWindow := by
      have hm := foldl_min_mem ts t
      rw [← hfil] at hm
      simpa using (List.mem_filter.mp hm).2
    simp only [RateLimiter.getTimeUntilNextAllowed, hl, hwin']
    exact max_eq_right (by omega)

theorem retry_after_value_witness :
    (∃ t ts,
      ((((RateLimiter.new Nat 2 1000).run [(7, 0), (7, 10)]).requests 7).getD []).filter
          (fun time => 20 - time < 1000) = t :: ts ∧
      ((((RateLimiter.new Nat 2 1000).run [(7, 0), (7, 10)]).isAllowed 7 20).2
          ).getTimeUntilNextAllowed 7 20 = 1000 - (20 - ts.foldl min t)) ∧
    (∀ (rl : RateLimiter Nat) (v : Nat) (later : Int),
      0 ≤ rl.getTimeUntilNextAllowed v later) :=
  retry_after_value 2 1000 [(7, 0), (7, 10)] 7 20 (by decide) (by decide)

/-- C14, counterexample: with `timeWindow = 0` the first call stores its own
time `now`, for which `now - now < timeWindow` is false; with
`maxRequests = 0` the first call stores one timestamp, more than
`maxRequests`. -/
theorem window_invariant_fails_for_degenerate_settings :
    (((RateLimiter.new Nat 1 0).run [(7, 5)]).requests 7 = some [5] ∧ ¬ ((5 : Int) - 5 < 0)) ∧
    (((RateLimiter.new Nat 0 1000).run [(7, 5)]).requests 7 = some [5] ∧
      ¬ ([(5 : Int)].length ≤ 0)) := by
  decide

/-- C14, as amended: with `maxRequests >= 1` and `timeWindow > 0`, after every
history of `isAllowed` calls on a new limiter that ends with a call of `u` at
time `now`, every timestamp `t` stored for `u` satisfies
`now - t < timeWindow` and at most `maxRequests` timestamps are stored for
`u`. -/
theorem window_invariant (maxRequests : Nat) (timeWindow : Int) (cs : List (κ × Int))
    (u : κ) (now : Int) (h1 : 1 ≤ maxRequests) (hw : 0 < timeWindow) :
    ∃ l, ((RateLimiter.new κ maxRequests timeWindow).run (cs ++ [(u, now)])).requests u = some l ∧
      (∀ t ∈ l, now - t < timeWindow) ∧ l.length ≤ maxRequests := by
  obtain ⟨hmax, hwin⟩ := run_config cs (RateLimiter.new κ maxRequests timeWindow)
  have hmax' : ((RateLimiter.new κ maxRequests timeWindow).run cs).maxRequests = maxRequests :=
    hmax
  have hwin' : ((RateLimiter.new κ maxRequests timeWindow).run cs).timeWindow = timeWindow :=
    hwin
  have hI := run_lengthBounded cs (RateLimiter.new κ maxRequests timeWindow) h1
    (new_lengthBounded maxRequests timeWindow)
  rw [run_append]
  show ∃ l, (((RateLimiter.new κ maxRequests timeWindow).run cs).isAllowed u now).2.requests u
    = some l ∧ _
  rcases isAllowed_requests_self ((RateLimiter.new κ maxRequests timeWindow).run cs) u now with
    ⟨-, h⟩ | ⟨l, -, hlt, h⟩ | ⟨l, hl, hge, h⟩
  · refine ⟨[now], h, ?_, by simpa using h1⟩
    intro t ht
    simp only [List.mem_singleton] at ht
    rw [ht]; omega
  · rw [hmax', hwin'] at hlt
    rw [hwin'] at h
    refine ⟨_, h, ?_, ?_⟩
    · intro t ht
      rcases List.mem_append.mp ht with ht | ht
      · simpa using (List.mem_filter.mp ht).2
      · simp only [List.mem_singleton] at ht
        rw [ht]; omega
    · simp only [List.length_append, List.length_cons, List.length_nil]
      omega
  · rw [hmax', hwin'] at hge
    have hlen := hI u l hl
    rw [hmax'] at hlen
    obtain ⟨hfil, -⟩ := filter_eq_self_of_length hge hlen
    refine ⟨l, h, ?_, hlen⟩
    intro t ht
    rw [← hfil] at ht
    simpa using (List.mem_filter.mp ht).2

theorem window_invariant_witness :
    ∃ l, ((RateLimiter.new Nat 2 1000).run ([(7, 0), (8, 5), (7, 10)] ++ [(7, 20)])).requests 7
        = some l ∧
      (∀ t ∈ l, 20 - t < 1000) ∧ l.length ≤ 2 :=
  window_invariant 2 1000 [(7, 0), (8, 5), (7, 10)] 7 20 (by decide) (by decide)

theorem isAllowed_congr (rl₁ rl₂ : RateLimiter κ) (v : κ) (t : Int)
    (hr : rl₁.requests v = rl₂.requests v) (hm : rl₁.maxRequests = rl₂.maxRequests)
    (hw : rl₁.timeWindow = rl₂.timeWindow) :
    (rl₁.isAllowed v t).1 = (rl₂.isAllowed v t).1 := by
  unfold RateLimiter.isAllowed
  rw [hr, hm, hw]
  split
  · rfl
  · simp only
    split <;> rfl

theorem calls_frame (u v : κ) (huv : v ≠ u) (times : List Int) :
    ∀ rl : RateLimiter κ, (rl.calls u times).2.requests v = rl.requests v ∧
      (rl.calls u times).2.maxRequests = rl.maxRequests ∧
      (rl.calls u times).2.timeWindow = rl.timeWindow := by
  induction times with
  | nil => intro rl; exact ⟨rfl, rfl, rfl⟩
  | cons a times ih =>
    intro rl
    obtain ⟨i1, i2, i3⟩ := ih (rl.isAllowed u a).2
    obtain ⟨c1, c2⟩ := isAllowed_config rl u a
    exact ⟨i1.trans (isAllowed_requests_other rl a huv), i2.trans c1, i3.trans c2⟩

/-- C18: for two distinct callers `u` and `v`, an `isAllowed` call for `u`
leaves the sequence stored for `v` as it was, and the answer to an
`isAllowed` call for `v` at a given time is the same after any number of
calls for `u` as without them. -/
theorem per_caller_independence (rl : RateLimiter κ) (u v : κ) (huv : u ≠ v) :
    (∀ now, (rl.isAllowed u now).2.requests v = rl.requests v) ∧
    (∀ (times : List Int) (t : Int),
      ((rl.calls u times).2.isAllowed v t).1 = (rl.isAllowed v t).1) := by
  constructor
  · intro now
    exact isAllowed_requests_other rl now (Ne.symm huv)
  · intro times t
    obtain ⟨h1, h2, h3⟩ := calls_frame u v (Ne.symm huv) times rl
    exact isAllowed_congr _ _ v t h1 h2 h3

theorem per_caller_independence_witness :
    (∀ now, ((RateLimiter.new Nat 1 1000).isAllowed 7 now).2.requests 8
      = (RateLimiter.new Nat 1 1000).requests 8) ∧
    (∀ (times : List Int) (t : Int),
      (((RateLimiter.new Nat 1 1000).calls 7 times).2.isAllowed 8 t).1
        = ((RateLimiter.new Nat 1 1000).isAllowed 8 t).1) :=
  per_caller_independence (RateLimiter.new Nat 1 1000) 7 8 (by decide)

/-- C20: when `isAllowed` answers false the limiter, request map included, is
the same after the call as before it, so the denied attempt is not stored and
the time the caller has to wait is what it was. -/
theorem denied_leaves_limiter_unchanged (rl : RateLimiter κ) (u : κ) (now : Int)
    (h : (rl.isAllowed u now).1 = false) :
    (rl.isAllowed u now).2 = rl ∧
    (rl.isAllowed u now).2.requests = rl.requests ∧
    (∀ v later, (rl.isAllowed u now).2.getTimeUntilNextAllowed v later
      = rl.getTimeUntilNextAllowed v later) := by
  have hsame := (isAllowed_false rl u now h).1
  rw [hsame]
  exact ⟨rfl, rfl, fun _ _ => rfl⟩

theorem denied_leaves_limiter_unchanged_witness :
    (((RateLimiter.new Nat 1 1000).run [(7, 0)]).isAllowed 7 10).2
      = (RateLimiter.new Nat 1 1000).run [(7, 0)] :=
  (denied_leaves_limiter_unchanged ((RateLimiter.new Nat 1 1000).run [(7, 0)]) 7 10
    (by decide)).1

/-- C19: with `maxRequests >= 1`, in a state reached from a new limiter by
`isAllowed` calls at non-decreasing times, when `isAllowed` denies `u` at a
time `now` not earlier than those calls, the value `r` of
`getTimeUntilNextAllowed` at the same `now` satisfies `0 < r <= timeWindow`,
and the next call of `u`, at any time `T >= now + r` and after any calls of
other callers, is answered true. -/
theorem retry_after_suffices (maxRequests : Nat) (timeWindow : Int) (cs : List (κ × Int))
    (u : κ) (now : Int) (others : List (κ × Int)) (T : Int)
    (h1 : 1 ≤ maxRequests)
    (hs : (cs.map Prod.snd ++ [now]).Sorted (· ≤ ·))
    (hden : (((RateLimiter.new κ maxRequests timeWindow).run cs).isAllowed u now).1 = false)
    (hothers : ∀ c ∈ others, c.1 ≠ u)
    (hT : now + ((((RateLimiter.new κ maxRequests timeWindow).run cs).isAllowed u now).2
        ).getTimeUntilNextAllowed u now ≤ T) :
    0 < ((((RateLimiter.new κ maxRequests timeWindow).run cs).isAllowed u now).2
        ).getTimeUntilNextAllowed u now ∧
    ((((RateLimiter.new κ maxRequests timeWindow).run cs).isAllowed u now).2
        ).getTimeUntilNextAllowed u now ≤ timeWindow ∧
    ((((((RateLimiter.new κ maxRequests timeWindow).run cs).isAllowed u now).2).run
        others).isAllowed u T).1 = true := by
  obtain ⟨hmax, hwin⟩ := run_config cs (RateLimiter.new κ maxRequests timeWindow)
  have hmax' : ((RateLimiter.new κ maxRequests timeWindow).run cs).maxRequests = maxRequests :=
    hmax
  have hwin' : ((RateLimiter.new κ maxRequests timeWindow).run cs).timeWindow = timeWindow :=
    hwin
  have hI := run_lengthBounded cs (RateLimiter.new κ maxRequests timeWindow) h1
    (new_lengthBounded maxRequests timeWindow)
  obtain ⟨hsame, l, hl, hge⟩ := isAllowed_false _ u now hden
  rw [hsame] at hT ⊢
  rw [hmax', hwin'] at hge
  have hlen := hI u l hl
  rw [hmax'] at hlen
  obtain ⟨hfil, hlen'⟩ := filter_eq_self_of_length hge hlen
  -- no stored timestamp is later than `now`
  have hsorted := List.pairwise_append.mp hs
  have hbound : TimeBounded ((RateLimiter.new κ maxRequests timeWindow).run cs) now := by
    cases cs with
    | nil => exact new_timeBounded maxRequests timeWindow now
    | cons c cs' =>
      refine run_timeBounded (c :: cs') _ c.2 now (new_timeBounded maxRequests timeWindow c.2)
        ?_ (hsorted.2.2 c.2 (by simp) now (by simp)) ?_
      · refine List.pairwise_cons.mpr ⟨?_, hsorted.1⟩
        intro x hx
        simp only [List.map_cons, List.mem_cons] at hx
        rcases hx with rfl | hx
        · exact le_refl _
        · have hs1 : (c.2 :: cs'.map Prod.snd).Sorted (· ≤ ·) := by simpa using hsorted.1
          exact (List.pairwise_cons.mp hs1).1 x hx
      · intro c' hc'
        exact hsorted.2.2 c'.2 (List.mem_map.mpr ⟨c', hc', rfl⟩) now (by simp)
  cases l with
  | nil => simp at hlen'; omega
  | cons t ts =>
    have hm := foldl_min_mem ts t
    have hrecent : now - ts.foldl min t < timeWindow := by
      have hm' := hm
      rw [← hfil] at hm'
      simpa using (List.mem_filter.mp hm').2
    have hle : ts.foldl min t ≤ now := hbound u _ hl _ hm
    have hr : ((RateLimiter.new κ maxRequests timeWindow).run cs).getTimeUntilNextAllowed u now
        = timeWindow - (now - ts.foldl min t) := by
      simp only [RateLimiter.getTimeUntilNextAllowed, hl, hwin']
      exact max_eq_right (by omega)
    rw [hr] at hT ⊢
    refine ⟨by omega, by omega, ?_⟩
    -- the next call of `u`
    obtain ⟨omax, owin⟩ := run_config others ((RateLimiter.new κ maxRequests timeWindow).run cs)
    have oreq := run_requests_other u others hothers
      ((RateLimiter.new κ maxRequests timeWindow).run cs)
    rw [hl] at oreq
    have hlt : ((t :: ts).filter (fun time => T - time <
        (((RateLimiter.new κ maxRequests timeWindow).run cs).run others).timeWindow)).length
        < (((RateLimiter.new κ maxRequests timeWindow).run cs).run others).maxRequests := by
      rw [omax, owin, hmax', hwin', ← hlen']
      apply List.length_filter_lt_length_iff_exists.mpr
      refine ⟨ts.foldl min t, hm, ?_⟩
      simp only [decide_eq_true_eq, not_lt]
      omega
    rw [isAllowed_admitted _ u T (t :: ts) oreq hlt]

theorem retry_after_suffices_witness :
    0 < ((((RateLimiter.new Nat 2 1000).run [(7, 0), (7, 10)]).isAllowed 7 20).2
        ).getTimeUntilNextAllowed 7 20 ∧
    ((((RateLimiter.new Nat 2 1000).run [(7, 0), (7, 10)]).isAllowed 7 20).2
        ).getTimeUntilNextAllowed 7 20 ≤ 1000 ∧
    ((((((RateLimiter.new Nat 2 1000).run [(7, 0), (7, 10)]).isAllowed 7 20).2).run
        [(8, 500)]).isAllowed 7 1000).1 = true :=
  retry_after_suffices 2 1000 [(7, 0), (7, 10)] 7 20 [(8, 500)] 1000 (by decide) (by decide)
    (by decide) (by decide) (by decide)

end History

/-! ## The shared set: no duplicates, lower case -/

theorem lowerNodup_nil (P : Str → Prop) : NodupAll P [] :=
  ⟨List.nodup_nil, fun _ h => absurd h (List.not_mem_nil _)⟩

theorem lowerNodup_add {P : Str → Prop} {s : StrSet} {x : Str} (hs : NodupAll P s)
    (hx : P x) :
    NodupAll P (s.add x) := by
  unfold StrSet.add
  split
  · exact hs
  · rename_i hmem
    refine ⟨List.Nodup.append hs.1 (List.nodup_singleton x) ?_, ?_⟩
    · intro a ha hax
      simp only [List.mem_singleton] at hax
      exact hmem (hax ▸ ha)
    · intro h hh
      rcases List.mem_append.mp hh with hh | hh
      · exact hs.2 h hh
      · simp only [List.mem_singleton] at hh
        rw [hh]; exact hx

theorem forEach_preserves {α : Type} {I : StrSet → Prop} {f : α → StrSet → Outcome}
    (hf : ∀ x s, I s → I (f x s).set) :
    ∀ (xs : List α) (s : StrSet), I s → I (forEach f xs s).set
  | [], _, hs => hs
  | x :: xs, s, hs => by
    simp only [forEach]
    split
    · exact hf x s hs
    · exact forEach_preserves hf xs _ (hf x s hs)

theorem crtShLine_lowerNodup {P : Str → Prop} (hP : ∀ x, P (toLowerCase U x))
    (d sub : Str) (s : StrSet) (hs : NodupAll P s) :
    NodupAll P (crtShLine U d sub s).set := by
  unfold crtShLine
  simp only
  split
  · exact lowerNodup_add hs (hP _)
  · exact hs

theorem crtShEntry_lowerNodup {P : Str → Prop} (hP : ∀ x, P (toLowerCase U x))
    (d : Str) (entry : JSON) (s : StrSet) (hs : NodupAll P s) :
    NodupAll P (crtShEntry U d entry s).set := by
  unfold crtShEntry
  split
  · exact hs
  · simp only
    split
    · split
      · exact forEach_preserves (crtShLine_lowerNodup hP d) _ s hs
      · exact hs
    · exact hs
  · exact hs

theorem crtShParser_lowerNodup {P : Str → Prop} (hP : ∀ x, P (toLowerCase U x))
    (data : JSON) (d : Str) (s : StrSet) (hs : NodupAll P s) :
    NodupAll P (crtShParser U data d s).set := by
  unfold crtShParser
  split
  · exact forEach_preserves (crtShEntry_lowerNodup hP d) _ s hs
  · exact hs

theorem alienvaultRecord_lowerNodup {P : Str → Prop} (hP : ∀ x, P (toLowerCase U x))
    (d : Str) (record : JSON) (s : StrSet)
    (hs : NodupAll P s) : NodupAll P (alienvaultRecord U d record s).set := by
  unfold alienvaultRecord
  split
  · exact hs
  · simp only
    split
    · split
      · split
        · exact lowerNodup_add hs (hP _)
        · exact hs
      · exact hs
    · exact hs
  · exact hs

theorem alienvaultParser_lowerNodup {P : Str → Prop} (hP : ∀ x, P (toLowerCase U x))
    (data : JSON) (d : Str) (s : StrSet)
    (hs : NodupAll P s) : NodupAll P (alienvaultParser U data d s).set := by
  unfold alienvaultParser
  split
  · exact hs
  · simp only
    split
    · split
      · exact forEach_preserves (alienvaultRecord_lowerNodup hP d) _ s hs
      · exact hs
    · exact hs
  · exact hs

theorem runSource_lowerNodup {P : Str → Prop} {parser : JSON → Str → StrSet → Outcome}
    (hp : ∀ data d s, NodupAll P s → NodupAll P (parser data d s).set) (r : FetchResult)
    (d : Str) (s : StrSet) (hs : NodupAll P s) : NodupAll P (runSource parser r d s) := by
  unfold runSource
  split
  · exact hs
  · split
    · exact hs
    · split
      · exact hs
      · exact hp _ d s hs

theorem gather_lowerNodup {P : Str → Prop} (hP : ∀ x, P (toLowerCase U x)) (d : Str)
    (net : Net) : NodupAll P (gather U d net) := by
  unfold gather
  split
  · exact runSource_lowerNodup (alienvaultParser_lowerNodup hP) _ d _
      (runSource_lowerNodup (crtShParser_lowerNodup hP) _ d _ (lowerNodup_nil P))
  · exact runSource_lowerNodup (crtShParser_lowerNodup hP) _ d _
      (runSource_lowerNodup (alienvaultParser_lowerNodup hP) _ d _ (lowerNodup_nil P))

/-- C15: with the lower-case mappings of `toLowerCase` given by any table for
which lowering a lowered text changes nothing (as with Unicode's), for a
validated domain `d` and any two payloads, ASCII or not, every element of the
list `getSubdomains` returns is its own lower-case form and is `d` or ends
with a dot followed by `d`, and the list has no duplicates. -/
theorem subdomain_set_invariant (d : Str) (net : Net) (hU : Idempotent U)
    (hv : validateDomain d = true) :
    (∀ h ∈ getSubdomains U d net, toLowerCase U h = h ∧ (h = d ∨ ('.' :: d) <:+ h)) ∧
    (getSubdomains U d net).Nodup := by
  rw [getSubdomains_eq d net hv]
  obtain ⟨hnd, hlow⟩ := gather_lowerNodup (P := fun h => toLowerCase U h = h)
    (fun x => hU x) d net
  refine ⟨?_, hnd.filter _⟩
  intro h hh
  obtain ⟨hmem, hscope⟩ := List.mem_filter.mp hh
  exact ⟨hlow h hmem, (inScope_iff d h).mp hscope⟩

theorem subdomain_set_invariant_witness :
    getSubdomains sampleTable exampleCom ⟨.response true (some crtLatin),
        .response true (some otxSample), true⟩
      = ["\u00E9.example.com".toList, "b.example.com".toList] ∧
    (∀ h ∈ getSubdomains sampleTable exampleCom ⟨.response true (some crtLatin),
        .response true (some otxSample), true⟩,
      toLowerCase sampleTable h = h ∧ (h = exampleCom ∨ ('.' :: exampleCom) <:+ h)) ∧
    (getSubdomains sampleTable exampleCom ⟨.response true (some crtLatin),
        .response true (some otxSample), true⟩).Nodup :=
  ⟨by decide, subdomain_set_invariant exampleCom _ sampleTable_idempotent (by decide)⟩

/-- C12, failing input: for the passive-DNS record with hostname
`SUB.EXAMPLE.COM` and the domain `example.com`, the lower-case hostname ends
with the domain, yet `alienvaultParser` inserts nothing, because it tests the
hostname as received; `crtShParser` inserts `sub.example.com` for the same
name, and so does `alienvaultParser` when the hostname arrives in lower
case. -/
theorem alienvaultParser_matches_case_sensitively :
    endsWith (toLowerCase sampleTable "SUB.EXAMPLE.COM".toList) exampleCom = true ∧
    (alienvaultParser sampleTable otxUpper exampleCom []).set = [] ∧
    (crtShParser sampleTable crtUpper exampleCom []).set = ["sub.example.com".toList] ∧
    (alienvaultParser sampleTable (.obj [("passive_dns".toList,
        .arr [.obj [("hostname".toList, .str "sub.example.com".toList)]])]) exampleCom []).set
      = ["sub.example.com".toList] := by
  decide

/-! ## Deduplication across the two sources -/

theorem trim_of_no_whiteSpace {s : Str} (hs : ∀ c ∈ s, isWhiteSpace c = false) :
    trim s = s := by
  cases s with
  | nil => rfl
  | cons c rest =>
    have hne : c :: rest ≠ [] := List.cons_ne_nil _ _
    exact trim_eq_self rfl (hs c (by simp)) (List.getLast?_eq_getLast _ hne)
      (hs _ (List.getLast_mem hne))

theorem split_of_not_mem {sep : Char} : ∀ s : Str, sep ∉ s → split sep s = [s]
  | [], _ => rfl
  | c :: s, h => by
    have hc : c ≠ sep := fun e => h (by simp [e])
    have ih := split_of_not_mem s (fun e => h (List.mem_cons_of_mem _ e))
    simp [split, hc, ih]

/-- The certificate normaliser on a single entry whose name is a letter-case
variant of an in-scope hostname. -/
theorem crtShParser_single (d v L : Str) (s : StrSet) (hws : ∀ c ∈ v, isWhiteSpace c = false)
    (hne : v ≠ []) (hL : toLowerCase U v = L) (hend : endsWith L d = true) :
    crtShParser U (.arr [.obj [("name_value".toList, .str v)]]) d s = ⟨s.add L, false⟩ := by
  have hnl : '\n' ∉ v := by
    intro hmem
    have := hws '\n' hmem
    revert this; decide
  have hempty : v.isEmpty = false := by
    cases v with
    | nil => exact absurd rfl hne
    | cons _ _ => rfl
  simp [crtShParser, crtShEntry, forEach, truthy, hempty, split_of_not_mem v hnl, crtShLine,
    trim_of_no_whiteSpace hws, hL, hend]

/-- The passive-DNS normaliser on a single record: the lower-case hostname is
inserted when the hostname as received ends with the domain. -/
theorem alienvaultParser_single (d v : Str) (s : StrSet) (hne : v ≠ []) :
    alienvaultParser U (.obj [("passive_dns".toList,
        .arr [.obj [("hostname".toList, .str v)]])]) d s
      = ⟨if endsWith v d = true then s.add (toLowerCase U v) else s, false⟩ := by
  have hempty : v.isEmpty = false := by
    cases v with
    | nil => exact absurd rfl hne
    | cons _ _ => rfl
  by_cases he : endsWith v d = true
  · simp [alienvaultParser, alienvaultRecord, forEach, truthy, hempty, he]
  · simp [alienvaultParser, alienvaultRecord, forEach, truthy, hempty, he]

theorem add_self_singleton (L : Str) : StrSet.add [L] L = [L] := by
  simp [StrSet.add]

theorem add_nil (L : Str) : StrSet.add [] L = [L] := by
  simp [StrSet.add]

/-- C11: with the lower-case mappings of `toLowerCase` given by any table,
for a validated domain `d` and a hostname `h` whose lower-case form is `d` or
ends with a dot followed by `d`, when the certificate list has one entry
naming a letter-case variant `v₁` of `h` (a hostname: a text without white
space) and the passive-DNS list has one record for another variant `v₂`,
`getSubdomains` returns the one-element list holding the lower-case form of
`h`, whichever callback runs first.  A letter-case variant of `h` is a text
with the same lower-case form as `h`. -/
theorem deduplication_across_adapters (d h v₁ v₂ : Str) (crtFirst : Bool)
    (hv : validateDomain d = true)
    (hw : ∀ c ∈ v₁, isWhiteSpace c = false)
    (hscope : toLowerCase U h = d ∨ ('.' :: d) <:+ toLowerCase U h)
    (h₁ : toLowerCase U v₁ = toLowerCase U h) (h₂ : toLowerCase U v₂ = toLowerCase U h) :
    getSubdomains U d
        ⟨.response true (some (.arr [.obj [("name_value".toList, .str v₁)]])),
          .response true (some (.obj [("passive_dns".toList,
            .arr [.obj [("hostname".toList, .str v₂)]])])), crtFirst⟩
      = [toLowerCase U h] := by
  have hin : inScope d (toLowerCase U h) = true := (inScope_iff d _).mpr hscope
  have hend : endsWith (toLowerCase U h) d = true := by
    unfold endsWith
    rw [List.isSuffixOf_iff_suffix]
    rcases hscope with e | e
    · rw [e]
    · exact (List.suffix_cons '.' d).trans e
  obtain ⟨c, rest, hd, -⟩ := validateDomain_head hv
  have hLne : toLowerCase U h ≠ [] := by
    intro e
    rw [e] at hend
    have hsuf : d <:+ [] := by
      have := hend
      unfold endsWith at this
      rwa [List.isSuffixOf_iff_suffix] at this
    rw [hd] at hsuf
    exact absurd (List.suffix_nil.mp hsuf) (by simp)
  have hne : ∀ v : Str, toLowerCase U v = toLowerCase U h → v ≠ [] := by
    intro v hv' e
    rw [e] at hv'
    exact hLne hv'.symm
  have hcrt := fun s => crtShParser_single (U := U) d v₁ (toLowerCase U h) s
    hw (hne v₁ h₁) h₁ hend
  have hotx := fun s => alienvaultParser_single (U := U) d v₂ s (hne v₂ h₂)
  rw [getSubdomains_eq d _ hv]
  have hg : gather U d
      ⟨.response true (some (.arr [.obj [("name_value".toList, .str v₁)]])),
        .response true (some (.obj [("passive_dns".toList,
          .arr [.obj [("hostname".toList, .str v₂)]])])), crtFirst⟩ = [toLowerCase U h] := by
    cases crtFirst <;> by_cases he : endsWith v₂ d = true <;>
      simp only [gather, runSource_ok, hcrt, hotx, he, h₂, add_nil, add_self_singleton,
        if_true, if_false, Bool.false_eq_true]
  rw [hg]
  simp [hin]

theorem deduplication_across_adapters_witness :
    toLowerCase sampleTable "\u00C9.example.com".toList = "\u00E9.example.com".toList ∧
    getSubdomains sampleTable exampleCom
        ⟨.response true (some (.arr [.obj [("name_value".toList,
          .str "\u00C9.EXAMPLE.COM".toList)]])),
          .response true (some (.obj [("passive_dns".toList,
            .arr [.obj [("hostname".toList, .str "\u00C9.example.com".toList)]])])), false⟩
      = [toLowerCase sampleTable "\u00C9.example.com".toList] :=
  ⟨by decide,
    deduplication_across_adapters exampleCom "\u00C9.example.com".toList
      "\u00C9.EXAMPLE.COM".toList "\u00C9.example.com".toList false (by decide) (by decide)
      (Or.inr (by decide)) (by decide) (by decide)⟩

/-! ## Handler -/

theorem cacheLookup_fst (files : Files) (cacheFile : Str) (now : Int) :
    (cacheLookup files cacheFile now).1 = none := by
  unfold cacheLookup
  cases files cacheFile with
  | none => rfl
  | some e => simp [Files.unlink]

section HandlerFacts

variable {κ : Type} [DecidableEq κ]

/-- The replies of the handler to a rejected input leave the state alone. -/
theorem handler_rejected (getDomainHash : Str → Str) (w : World κ) (sender : κ) (text : Str)
    (clock : Clock) (net : Net) (hrej : validateDomain (normalize U text) = false) :
    handler U getDomainHash w sender text clock net
      = (if text.isEmpty then Reply.usage else Reply.invalidFormat, w) := by
  unfold handler
  by_cases he : text.isEmpty = true
  · simp [he]
  · simp [he, hrej]

/-- The reply of the handler to an accepted input of an admitted caller: the
sorted result of a new aggregation, or the message that nothing was found. -/
theorem handler_admitted (getDomainHash : Str → Str) (w : World κ) (sender : κ) (text : Str)
    (clock : Clock) (net : Net) (hne : text.isEmpty = false)
    (hv : validateDomain (normalize U text) = true)
    (hal : (w.rateLimiter.isAllowed sender clock.isAllowed).1 = true) :
    (handler U getDomainHash w sender text clock net).1
      = if (getSubdomains U (normalize U text) net).isEmpty then Reply.notFound (normalize U text)
        else Reply.result (normalize U text) (sortStrings (getSubdomains U (normalize U text) net))
          false := by
  unfold handler
  simp only [hne, hv, hal, cacheLookup_fst, Bool.false_eq_true, if_false, Bool.not_true]
  split <;> rfl

/-- The reply of the handler to a caller that is not admitted. -/
theorem handler_denied (getDomainHash : Str → Str) (w : World κ) (sender : κ) (text : Str)
    (clock : Clock) (net : Net) (hne : text.isEmpty = false)
    (hv : validateDomain (normalize U text) = true)
    (hal : (w.rateLimiter.isAllowed sender clock.isAllowed).1 = false) :
    (handler U getDomainHash w sender text clock net).1
      = Reply.rateLimited
          (((w.rateLimiter.isAllowed sender clock.isAllowed).2.getTimeUntilNextAllowed sender
            clock.waitTime + 999) / 1000) := by
  unfold handler
  simp only [hne, hv, hal, Bool.false_eq_true, if_false, Bool.not_true, Bool.not_false, if_true]

end HandlerFacts

theorem gather_perm_swap (d : Str) (net : Net) : (gather U d net.swap).Perm (gather U d net) := by
  apply (List.perm_ext_iff_of_nodup
    (gather_lowerNodup (U := U) (P := fun _ => True) (fun _ => trivial) d net.swap).1
    (gather_lowerNodup (U := U) (P := fun _ => True) (fun _ => trivial) d net).1).mpr
  intro h
  rw [mem_gather, mem_gather]
  rfl

theorem getSubdomains_perm_swap (d : Str) (net : Net) :
    (getSubdomains U d net.swap).Perm (getSubdomains U d net) :=
  (gather_perm_swap d net).filter _

theorem perm_isEmpty {l₁ l₂ : List Str} (h : l₁.Perm l₂) : l₁.isEmpty = l₂.isEmpty := by
  cases l₁ with
  | nil => rw [List.nil_perm.mp h]
  | cons a l₁ =>
    cases l₂ with
    | nil => exact absurd (List.perm_nil.mp h) (by simp)
    | cons b l₂ => rfl

section HandlerClaims

variable {κ : Type} [DecidableEq κ]

/-- C16: the handler's reply is the same whichever source's callback inserts
its hostnames into the shared set first; when the reply carries a list of
subdomains, that list is in ascending order, has exactly the elements that
`getSubdomains` returned for the validated domain, each as often, and does
not come from the cache. -/
theorem delivered_list_sorted (getDomainHash : Str → Str) (w : World κ) (sender : κ)
    (text : Str) (clock : Clock) (net : Net) :
    (handler U getDomainHash w sender text clock net.swap).1
      = (handler U getDomainHash w sender text clock net).1 ∧
    ∀ d subs c, (handler U getDomainHash w sender text clock net).1 = Reply.result d subs c →
      subs.Sorted (· ≤ ·) ∧ subs.Perm (getSubdomains U d net) ∧
      (∀ h, h ∈ subs ↔ h ∈ getSubdomains U d net) ∧ c = false := by
  by_cases hne : text.isEmpty = true
  · have e : ∀ n : Net, (handler U getDomainHash w sender text clock n).1 = Reply.usage := by
      intro n; unfold handler; simp [hne]
    refine ⟨by rw [e, e], ?_⟩
    intro d subs c h
    rw [e] at h
    exact absurd h (by simp)
  · have hne' : text.isEmpty = false := by simpa using hne
    cases hv : validateDomain (normalize U text) with
    | false =>
      have e : ∀ n : Net,
          (handler U getDomainHash w sender text clock n).1 = Reply.invalidFormat := by
        intro n
        rw [handler_rejected getDomainHash w sender text clock n hv]
        simp [hne']
      refine ⟨by rw [e, e], ?_⟩
      intro d subs c h
      rw [e] at h
      exact absurd h (by simp)
    | true =>
      cases hal : (w.rateLimiter.isAllowed sender clock.isAllowed).1 with
      | false =>
        have e := fun n : Net => handler_denied getDomainHash w sender text clock n hne' hv hal
        refine ⟨by rw [e, e], ?_⟩
        intro d subs c h
        rw [e] at h
        exact absurd h (by simp)
      | true =>
        have e := fun n : Net => handler_admitted getDomainHash w sender text clock n hne' hv hal
        have hperm := getSubdomains_perm_swap (U := U) (normalize U text) net
        constructor
        · rw [e, e, perm_isEmpty hperm, sortStrings_eq_of_perm hperm]
        · intro d subs c h
          rw [e] at h
          split at h
          · exact absurd h (by simp)
          · simp only [Reply.result.injEq] at h
            obtain ⟨rfl, rfl, rfl⟩ := h
            exact ⟨sortStrings_sorted _, sortStrings_perm _,
              fun x => (sortStrings_perm _).mem_iff, rfl⟩

theorem delivered_list_sorted_witness :
    (handler sampleTable id freshWorld 7 exampleCom ⟨0, 0, 0, 0⟩
        (Net.swap ⟨.response true (some crtSample), .response true (some otxSample), true⟩)).1
      = (handler sampleTable id freshWorld 7 exampleCom ⟨0, 0, 0, 0⟩
        ⟨.response true (some crtSample), .response true (some otxSample), true⟩).1 ∧
    (["a.example.com".toList, "b.example.com".toList].Sorted (· ≤ ·) ∧
      ["a.example.com".toList, "b.example.com".toList].Perm
        (getSubdomains sampleTable exampleCom
          ⟨.response true (some crtSample), .response true (some otxSample), true⟩) ∧
      (∀ h, h ∈ ["a.example.com".toList, "b.example.com".toList] ↔
        h ∈ getSubdomains sampleTable exampleCom
          ⟨.response true (some crtSample), .response true (some otxSample), true⟩) ∧
      false = false) :=
  ⟨(delivered_list_sorted id freshWorld 7 exampleCom ⟨0, 0, 0, 0⟩
      ⟨.response true (some crtSample), .response true (some otxSample), true⟩).1,
    (delivered_list_sorted id freshWorld 7 exampleCom ⟨0, 0, 0, 0⟩
      ⟨.response true (some crtSample), .response true (some otxSample), true⟩).2
      exampleCom ["a.example.com".toList, "b.example.com".toList] false (by decide)⟩

/-- C17: when the normalised form of the input is rejected by
`validateDomain`, the handler replies with the format error (with the usage
text when the input is empty) and the limiter and the cache are what they
were; the outcome does not depend on the clock or on the network, neither
`isAllowed` nor the aggregation being reached. -/
theorem validation_failure_no_side_effects (getDomainHash : Str → Str) (w : World κ)
    (sender : κ) (text : Str) (clock : Clock) (net : Net)
    (hrej : validateDomain (normalize U text) = false) :
    (handler U getDomainHash w sender text clock net).1
      = (if text.isEmpty then Reply.usage else Reply.invalidFormat) ∧
    (handler U getDomainHash w sender text clock net).2 = w ∧
    (handler U getDomainHash w sender text clock net).2.rateLimiter.requests
      = w.rateLimiter.requests ∧
    (handler U getDomainHash w sender text clock net).2.files = w.files ∧
    ∀ (clock' : Clock) (net' : Net),
      handler U getDomainHash w sender text clock' net'
        = handler U getDomainHash w sender text clock net := by
  have e := fun (c : Clock) (n : Net) => handler_rejected getDomainHash w sender text c n hrej
  rw [e]
  exact ⟨rfl, rfl, rfl, rfl, fun c n => e c n⟩

theorem validation_failure_no_side_effects_witness :
    (handler sampleTable id freshWorld 7 "exa mple.com".toList ⟨0, 0, 0, 0⟩ netCrtOnly).1
      = (if "exa mple.com".toList.isEmpty then Reply.usage else Reply.invalidFormat) ∧
    (handler sampleTable id freshWorld 7 "exa mple.com".toList ⟨0, 0, 0, 0⟩ netCrtOnly).2
      = freshWorld :=
  ⟨(validation_failure_no_side_effects id freshWorld 7 "exa mple.com".toList ⟨0, 0, 0, 0⟩
      netCrtOnly (by decide)).1,
    (validation_failure_no_side_effects id freshWorld 7 "exa mple.com".toList ⟨0, 0, 0, 0⟩
      netCrtOnly (by decide)).2.1⟩

end HandlerClaims

end Subfinder
